import Mathlib

/-!
Verification of the land-allocation coursework repository: shallow embedding of
`brute_force.py`, `greedy.py` and `two_stage.py` (cells are `(row, col)` pairs,
matrices are lists of rows of integer costs), together with proofs of the
specification claims about the three allocation algorithms.
-/

/-- Grid cell: a `(row, col)` coordinate pair, 0-based. -/
abbrev Cell := Nat × Nat

/-- Cost matrix: a list of rows of integer plot costs. -/
abbrev CostMatrix := List (List Int)

/-- Cost of the plot at cell `c`; `matrix[i][j]` in the Python sources. -/
def cost (matrix : CostMatrix) (c : Cell) : Int :=
  (matrix.getD c.1 []).getD c.2 0

/-- In-bounds 4-neighbours of a cell, in the shared `directions` order of the
sources: up `(-1,0)`, down `(1,0)`, left `(0,-1)`, right `(0,1)`, each kept
only when `0 <= ni < n` and `0 <= nj < m`. -/
def nbrs (n m : Nat) (c : Cell) : List Cell :=
  (if 1 ≤ c.1 ∧ c.1 - 1 < n ∧ c.2 < m then [(c.1 - 1, c.2)] else []) ++
  (if c.1 + 1 < n ∧ c.2 < m then [(c.1 + 1, c.2)] else []) ++
  (if c.1 < n ∧ 1 ≤ c.2 ∧ c.2 - 1 < m then [(c.1, c.2 - 1)] else []) ++
  (if c.1 < n ∧ c.2 + 1 < m then [(c.1, c.2 + 1)] else [])

/-- Python `max(sums)` over a non-empty list (0 on the empty list, unused). -/
def listMax : List Int → Int
  | [] => 0
  | h :: t => t.foldl max h

/-- Python `min(sums)` over a non-empty list (0 on the empty list, unused). -/
def listMin : List Int → Int
  | [] => 0
  | h :: t => t.foldl min h

/-- Per-developer cost sums of the four regions, `sums` in the sources
(`for dev in range(4): for (i, j) in regions[dev]: sums[dev] += matrix[i][j]`). -/
def sumsOf (matrix : CostMatrix) (regions : List (List Cell)) : List Int :=
  [((regions.getD 0 []).map (cost matrix)).sum,
   ((regions.getD 1 []).map (cost matrix)).sum,
   ((regions.getD 2 []).map (cost matrix)).sum,
   ((regions.getD 3 []).map (cost matrix)).sum]

/-- Objective value `max(sums) - min(sums)` of `brute_force.calculate_objective_value`. -/
def calculate_objective_value (matrix : CostMatrix) (regions : List (List Cell)) : Int :=
  listMax (sumsOf matrix regions) - listMin (sumsOf matrix regions)

/-- Imbalance `max(sums) - min(sums)` of `greedy.calculate_imbalance`. -/
def calculate_imbalance (sums : List Int) : Int :=
  listMax sums - listMin sums

/-- Current imbalance of `two_stage.calculate_current_imbalance`. -/
def calculate_current_imbalance (matrix : CostMatrix) (regions : List (List Cell)) : Int :=
  listMax (sumsOf matrix regions) - listMin (sumsOf matrix regions)

/-- All cells of an `n × m` grid in row-major order (the `all_cells` list built
by `create_initial_allocation`). -/
def allCells (n m : Nat) : List Cell :=
  (List.range n).flatMap (fun i => (List.range m).map (fun j => (i, j)))

/-! ### Connectivity check (`brute_force.check_connected`) -/

/-- One-cell-per-step BFS queue loop of `check_connected`: pop the front cell,
push every in-bounds unvisited neighbour that belongs to the region set.
A fuel of `region.length` is enough to drain the queue (each pushed cell is
fresh, so at most `region.length` cells are ever pushed). -/
def bfsAux (n m : Nat) (region : List Cell) : Nat → List Cell → List Cell → List Cell
  | 0, _, visited => visited
  | _ + 1, [], visited => visited
  | fuel + 1, c :: queue, visited =>
    let fresh := (nbrs n m c).filter (fun d => decide (d ∈ region ∧ d ∉ visited))
    bfsAux n m region fuel (queue ++ fresh) (visited ++ fresh)

/-- Connectivity test of `brute_force.check_connected`: BFS from the first cell
of the region, returning whether the number of visited cells equals the length
of the region list (regions of size at most 1 are trivially connected). -/
def check_connected (region : List Cell) (n m : Nat) : Bool :=
  if region.length ≤ 1 then true
  else
    match region with
    | [] => true
    | c0 :: _ => (bfsAux n m region region.length [c0] [c0]).length == region.length

/-- Test of `brute_force.all_regions_connected`: every non-empty region passes
`check_connected`. -/
def all_regions_connected (regions : List (List Cell)) (n m : Nat) : Bool :=
  regions.all (fun region => region.isEmpty || check_connected region n m)

/-! ### Exhaustive search (`brute_force.py`) -/

/-- Region of developer `dev` induced by a labelling: the cells `(idx / m, idx % m)`
of the indices labelled `dev`, in increasing index order.  This is the per-label
view of the `labels_to_regions` loop, which appends `(idx // m, idx % m)` to
`regions[labels[idx]]` for `idx` increasing. -/
def regionOfLabel (labels : List Nat) (m dev : Nat) : List Cell :=
  ((List.range labels.length).filter (fun idx => labels.getD idx 4 == dev)).map
    (fun idx => (idx / m, idx % m))

/-- The four regions induced by a labelling, `brute_force.labels_to_regions`
(`_n` is unused, exactly as in the source). -/
def labels_to_regions (labels : List Nat) (_n m : Nat) : List (List Cell) :=
  [regionOfLabel labels m 0, regionOfLabel labels m 1,
   regionOfLabel labels m 2, regionOfLabel labels m 3]

/-- All length-`k` lists over `{0,1,2,3}` in the order of
`itertools.product(range(4), repeat=k)`: first position varies slowest. -/
def allLabels : Nat → List (List Nat)
  | 0 => [[]]
  | k + 1 => (List.range 4).flatMap (fun d => (allLabels k).map (fun L => d :: L))

/-- Candidate filter of the brute-force loop: skip when some developer got no
cell, skip when some region is not connected. -/
def validRegionsB (regions : List (List Cell)) (n m : Nat) : Bool :=
  !(regions.any (fun region => region.isEmpty)) && all_regions_connected regions n m

/-- Enumeration loop of `brute_force_allocation`: fold over the labellings,
counting every candidate and keeping the first candidate whose objective value
is strictly smaller than the best seen so far (`best = none` plays the role of
`best_objective = float("inf")`, `best_regions = None`). -/
def bruteLoop (matrix : CostMatrix) (n m : Nat) :
    List (List Nat) → Option (List (List Cell) × Int) → Nat →
      Option (List (List Cell) × Int) × Nat
  | [], best, count => (best, count)
  | labels :: rest, best, count =>
    let regions := labels_to_regions labels n m
    let best' :=
      if validRegionsB regions n m then
        let objective_value := calculate_objective_value matrix regions
        match best with
        | none => some (regions, objective_value)
        | some (_, best_objective) =>
          if objective_value < best_objective then some (regions, objective_value) else best
      else best
    bruteLoop matrix n m rest best' (count + 1)

/-- Brute-force allocation, `brute_force.brute_force_allocation`: guard empty
matrices and matrices of more than 16 cells, then enumerate all `4^(n*m)`
labellings and return the best valid partition with the number of candidates
checked (4 empty regions if no candidate was valid). -/
def brute_force_allocation (matrix : CostMatrix) : List (List Cell) × Nat :=
  if matrix = [] ∨ matrix.headD [] = [] then ([[], [], [], []], 0)
  else
    let n := matrix.length
    let m := (matrix.headD []).length
    if n * m > 16 then ([[], [], [], []], 0)
    else
      match bruteLoop matrix n m (allLabels (n * m)) none 0 with
      | (none, count) => ([[], [], [], []], count)
      | (some (best_regions, _), count) => (best_regions, count)

/-! ### Greedy allocation (`greedy.py`) -/

/-- Assignment flag of cell `c` in the boolean matrix `assigned`. -/
def assignedAt (assigned : List (List Bool)) (c : Cell) : Bool :=
  (assigned.getD c.1 []).getD c.2 false

/-- Mark cell `c` as assigned (`assigned[i][j] = True`). -/
def setAssigned (assigned : List (List Bool)) (c : Cell) : List (List Bool) :=
  assigned.set c.1 ((assigned.getD c.1 []).set c.2 true)

/-- Developer with the smallest sum, `greedy.get_developer_with_min_sum`:
`sums.index(min(sums))`, the first index attaining the minimum. -/
def get_developer_with_min_sum (sums : List Int) : Nat :=
  sums.findIdx (fun x => x == listMin sums)

/-- Free cells adjacent to a region, `greedy.get_adjacent_free_cells`: the set
of in-bounds unassigned 4-neighbours of the region's cells (kept as a
duplicate-free list in discovery order). -/
def get_adjacent_free_cells (region : List Cell) (assigned : List (List Bool))
    (n m : Nat) : List Cell :=
  region.foldl
    (fun acc c =>
      acc ++ ((nbrs n m c).filter
        (fun d => decide (assignedAt assigned d = false ∧ d ∉ acc))))
    []

/-- First developer (in index order 0→3) with adjacent free cells,
`greedy.find_developer_with_adjacent_cells`; `none` encodes the `(-1, [])`
not-found answer. -/
def find_developer_with_adjacent_cells (regions : List (List Cell))
    (assigned : List (List Bool)) (n m : Nat) : Option (Nat × List Cell) :=
  [0, 1, 2, 3].foldr
    (fun dev rest =>
      let adjacent_cells := get_adjacent_free_cells (regions.getD dev []) assigned n m
      if adjacent_cells.isEmpty then rest else some (dev, adjacent_cells))
    none

/-- Best adjacent cell for the target developer, `greedy.choose_best_cell`:
the first cell whose addition minimises the resulting imbalance (single-element
lists short-circuit; the `(0, 0)` answer on `[]` is never used). -/
def choose_best_cell (adjacent_cells : List Cell) (matrix : CostMatrix)
    (sums : List Int) (target_dev : Nat) : Cell :=
  match adjacent_cells with
  | [] => (0, 0)
  | a :: rest =>
    if rest.isEmpty then a
    else
      let best := (a :: rest).foldl
        (fun acc c =>
          let imbalance := calculate_imbalance
            (sums.set target_dev (sums.getD target_dev 0 + cost matrix c))
          match acc with
          | none => some (c, imbalance)
          | some (_, min_imbalance) =>
            if imbalance < min_imbalance then some (c, imbalance) else acc)
        none
      match best with
      | none => a
      | some (best_cell, _) => best_cell

/-- State of the greedy growth loop. -/
structure GState where
  regions : List (List Cell)
  sums : List Int
  assigned : List (List Bool)
  total_assigned : Nat
  iter : Nat

/-- How the greedy growth loop ended: the `while` condition became false
(`completed`), the in-loop `break` fired (`broke`), or the modelling fuel ran
out (`fuelOut`, proved unreachable). -/
inductive GExit where
  | completed
  | broke
  | fuelOut
deriving DecidableEq, Repr

/-- Body of one greedy growth iteration (after the iteration counter has been
incremented): pick the developer with minimum sum, fall back to the first
developer with adjacent free cells, `none` when nobody has any (the `break`). -/
def greedyStep (matrix : CostMatrix) (n m : Nat) (s : GState) : Option GState :=
  let min_dev := get_developer_with_min_sum s.sums
  let adjacent_cells := get_adjacent_free_cells (s.regions.getD min_dev []) s.assigned n m
  let target? :=
    if adjacent_cells.isEmpty then
      find_developer_with_adjacent_cells s.regions s.assigned n m
    else some (min_dev, adjacent_cells)
  match target? with
  | none => none
  | some (target_dev, cells) =>
    let best_cell := choose_best_cell cells matrix s.sums target_dev
    some { regions := s.regions.set target_dev
             ((s.regions.getD target_dev []) ++ [best_cell]),
           sums := s.sums.set target_dev
             (s.sums.getD target_dev 0 + cost matrix best_cell),
           assigned := setAssigned s.assigned best_cell,
           total_assigned := s.total_assigned + 1,
           iter := s.iter }

/-- The greedy `while total_assigned < total_cells` loop.  The iteration
counter is incremented at the top of every iteration, including the one that
breaks, exactly as in the source. -/
def greedyLoop (matrix : CostMatrix) (n m : Nat) : Nat → GState → GState × GExit
  | 0, s => (s, GExit.fuelOut)
  | fuel + 1, s =>
    if s.total_assigned < n * m then
      let s1 := { s with iter := s.iter + 1 }
      match greedyStep matrix n m s1 with
      | none => (s1, GExit.broke)
      | some s2 => greedyLoop matrix n m fuel s2
    else (s, GExit.completed)

/-- Initial greedy state: the four corner cells seeded to developers 0–3 in the
order top-left, top-right, bottom-left, bottom-right, with sums and the
assignment matrix updated per seed (coinciding corners are seeded repeatedly,
exactly as the source's loop does). -/
def greedyInit (matrix : CostMatrix) (n m : Nat) : GState :=
  { regions := [[(0, 0)], [(0, m - 1)], [(n - 1, 0)], [(n - 1, m - 1)]],
    sums := [cost matrix (0, 0), cost matrix (0, m - 1),
             cost matrix (n - 1, 0), cost matrix (n - 1, m - 1)],
    assigned := setAssigned (setAssigned (setAssigned (setAssigned
      (List.replicate n (List.replicate m false)) (0, 0)) (0, m - 1)) (n - 1, 0))
      (n - 1, m - 1),
    total_assigned := 4,
    iter := 0 }

/-- Full greedy run, exposing the final state and how the loop exited. -/
def greedyRun (matrix : CostMatrix) : GState × GExit :=
  let n := matrix.length
  let m := (matrix.headD []).length
  greedyLoop matrix n m (n * m) (greedyInit matrix n m)

/-- Greedy allocation, `greedy.greedy_allocation`: guard empty matrices, then
seed the corners and grow regions until all cells are assigned or no region
has an adjacent free cell. -/
def greedy_allocation (matrix : CostMatrix) : List (List Cell) × Nat :=
  if matrix = [] ∨ matrix.headD [] = [] then ([[], [], [], []], 0)
  else
    let (s, _) := greedyRun matrix
    (s.regions, s.iter)

/-! ### Two-stage allocation (`two_stage.py`) -/

/-- Stage 1, `two_stage.create_initial_allocation`: list all cells in row-major
order and split them into 4 contiguous runs, the first `total mod 4` runs one
cell longer. -/
def create_initial_allocation (matrix : CostMatrix) : List (List Cell) :=
  let n := matrix.length
  let m := (matrix.headD []).length
  let total_cells := n * m
  let all_cells := allCells n m
  let cells_per_region := total_cells / 4
  let remainder := total_cells % 4
  let size := fun dev => cells_per_region + (if dev < remainder then 1 else 0)
  [(all_cells.take (size 0)),
   ((all_cells.drop (size 0)).take (size 1)),
   (((all_cells.drop (size 0)).drop (size 1)).take (size 2)),
   ((((all_cells.drop (size 0)).drop (size 1)).drop (size 2)).take (size 3))]

/-- Does `c` have a 4-neighbour inside the list `s`? -/
def hasNbrIn (n m : Nat) (c : Cell) (s : List Cell) : Bool :=
  (nbrs n m c).any (fun d => decide (d ∈ s))

/-- Append `c` unless already present (set-insertion into a duplicate-free list). -/
def dedupInsert (acc : List Cell) (c : Cell) : List Cell :=
  if c ∈ acc then acc else acc ++ [c]

/-- Boundary cells between two regions, `two_stage.find_boundary_cells`: cells
of either region with a 4-neighbour in the other one, collected as a set. -/
def find_boundary_cells (region1 region2 : List Cell) (n m : Nat) : List Cell :=
  ((region1.filter (fun c => hasNbrIn n m c region2)) ++
   (region2.filter (fun c => hasNbrIn n m c region1))).foldl dedupInsert []

/-- New imbalance after moving `cell` between developers,
`two_stage.simulate_move`: recompute the four sums, shift the cell's value from
`from_dev` to `to_dev`, return `max - min`. -/
def simulate_move (matrix : CostMatrix) (regions : List (List Cell)) (cell : Cell)
    (from_dev to_dev : Nat) : Int :=
  let sums := sumsOf matrix regions
  let cell_value := cost matrix cell
  let sums1 := sums.set from_dev (sums.getD from_dev 0 - cell_value)
  let sums2 := sums1.set to_dev (sums1.getD to_dev 0 + cell_value)
  listMax sums2 - listMin sums2

/-- The ordered pairs `(dev1, dev2)`, `dev1 ≠ dev2`, in the nested-loop order
of `optimize_boundaries`. -/
def devPairs : List (Nat × Nat) :=
  [(0, 1), (0, 2), (0, 3), (1, 0), (1, 2), (1, 3),
   (2, 0), (2, 1), (2, 3), (3, 0), (3, 1), (3, 2)]

/-- All candidate moves of one `optimize_boundaries` iteration, in enumeration
order: for each pair of distinct regions and each boundary cell between them,
the move of that cell out of the region currently holding it. -/
def candidateMoves (regions : List (List Cell)) (n m : Nat) :
    List (Cell × Nat × Nat) :=
  devPairs.flatMap (fun p =>
    (find_boundary_cells (regions.getD p.1 []) (regions.getD p.2 []) n m).map
      (fun cell =>
        let from_dev := if cell ∈ regions.getD p.1 [] then p.1 else p.2
        let to_dev := if from_dev = p.1 then p.2 else p.1
        (cell, from_dev, to_dev)))

/-- Best move of one `optimize_boundaries` iteration: the first candidate whose
improvement (current imbalance minus simulated imbalance) strictly exceeds the
best improvement so far, starting from `best_improvement = 0`. -/
def findBestMove (matrix : CostMatrix) (regions : List (List Cell)) (n m : Nat) :
    Option (Cell × Nat × Nat) :=
  let current_imbalance := calculate_current_imbalance matrix regions
  ((candidateMoves regions n m).foldl
    (fun acc mv =>
      let improvement := current_imbalance - simulate_move matrix regions mv.1 mv.2.1 mv.2.2
      if improvement > acc.1 then (improvement, some mv) else acc)
    ((0 : Int), (none : Option (Cell × Nat × Nat)))).2

/-- Apply a move: remove the cell from its source region (first occurrence,
Python `list.remove`) and append it to the destination region. -/
def applyMove (regions : List (List Cell)) (cell : Cell) (from_dev to_dev : Nat) :
    List (List Cell) :=
  let regions1 := regions.set from_dev ((regions.getD from_dev []).erase cell)
  regions1.set to_dev ((regions1.getD to_dev []) ++ [cell])

/-- One full iteration of the Stage-2 loop: apply the best move when one
exists, otherwise leave the regions unchanged. -/
def obStep (matrix : CostMatrix) (regions : List (List Cell)) (n m : Nat) :
    List (List Cell) :=
  match findBestMove matrix regions n m with
  | some (cell, from_dev, to_dev) => applyMove regions cell from_dev to_dev
  | none => regions

/-- The `while iterations < max_iterations` loop of `optimize_boundaries`:
each iteration counts (including the final non-improving one), and the loop
breaks as soon as an iteration finds no improving move. -/
def obLoop (matrix : CostMatrix) (n m : Nat) :
    Nat → List (List Cell) → Nat → List (List Cell) × Nat
  | 0, regions, iterations => (regions, iterations)
  | fuel + 1, regions, iterations =>
    match findBestMove matrix regions n m with
    | some (cell, from_dev, to_dev) =>
      obLoop matrix n m fuel (applyMove regions cell from_dev to_dev) (iterations + 1)
    | none => (regions, iterations + 1)

/-- Stage 2, `two_stage.optimize_boundaries`. -/
def optimize_boundaries (matrix : CostMatrix) (regions : List (List Cell))
    (max_iterations : Nat) : List (List Cell) × Nat :=
  let n := matrix.length
  let m := (matrix.headD []).length
  obLoop matrix n m max_iterations regions 0

/-- Two-stage allocation, `two_stage.two_stage_allocation`: guard empty
matrices, build the Stage-1 split, refine it with `optimize_boundaries`. -/
def two_stage_allocation (matrix : CostMatrix) (max_iterations : Nat := 100) :
    List (List Cell) × Nat :=
  if matrix = [] ∨ matrix.headD [] = [] then ([[], [], [], []], 0)
  else
    let regions := create_initial_allocation matrix
    optimize_boundaries matrix regions max_iterations

/-! ### Abstract notions used by the claims -/

/-- Rectangularity of a cost matrix: `n` rows, each of length `m`. -/
def Rect (matrix : CostMatrix) (n m : Nat) : Prop :=
  matrix.length = n ∧ ∀ row ∈ matrix, row.length = m

instance (matrix : CostMatrix) (n m : Nat) : Decidable (Rect matrix n m) := by
  unfold Rect
  infer_instance

/-- One step of 4-neighbour adjacency inside the cell set `s` (in-bounds, per
the glossary of the specification). -/
def AdjStep (n m : Nat) (s : List Cell) (c d : Cell) : Prop :=
  d ∈ nbrs n m c ∧ d ∈ s

/-- Edge-connectivity of a region under 4-neighbour adjacency: every cell is
reachable from every other via 4-neighbour steps staying within the region. -/
def RegionConnected (s : List Cell) (n m : Nat) : Prop :=
  ∀ a ∈ s, ∀ b ∈ s, Relation.ReflTransGen (AdjStep n m s) a b

/-- A list of four regions that partitions the `n × m` grid: pairwise disjoint,
duplicate-free, and jointly covering every cell exactly once. -/
def DisjointCover (regions : List (List Cell)) (n m : Nat) : Prop :=
  (∀ d1 < 4, ∀ d2 < 4, d1 ≠ d2 →
    ∀ c : Cell, c ∈ regions.getD d1 [] → c ∉ regions.getD d2 []) ∧
  (∀ c : Cell, c ∈ allCells n m ↔ ∃ d < 4, c ∈ regions.getD d []) ∧
  (∀ d < 4, (regions.getD d []).Nodup)

/-! ### Basic lemmas: neighbours, the grid, list utilities -/

lemma mem_single_ite {P : Prop} [Decidable P] {x d : Cell} :
    (d ∈ if P then [x] else ([] : List Cell)) ↔ P ∧ d = x := by
  split <;> simp_all

/-- Characterisation of 4-neighbourhood membership. -/
lemma mem_nbrs {n m : Nat} {c d : Cell} :
    d ∈ nbrs n m c ↔ d.1 < n ∧ d.2 < m ∧
      ((d.2 = c.2 ∧ (d.1 + 1 = c.1 ∨ c.1 + 1 = d.1)) ∨
       (d.1 = c.1 ∧ (d.2 + 1 = c.2 ∨ c.2 + 1 = d.2))) := by
  simp only [nbrs, List.mem_append, mem_single_ite, Prod.ext_iff]
  omega

lemma nbrs_bounds {n m : Nat} {c d : Cell} (h : d ∈ nbrs n m c) :
    d.1 < n ∧ d.2 < m := by
  have := mem_nbrs.mp h
  exact ⟨this.1, this.2.1⟩

lemma nbrs_symm {n m : Nat} {c d : Cell} (hc1 : c.1 < n) (hc2 : c.2 < m)
    (h : d ∈ nbrs n m c) : c ∈ nbrs n m d := by
  rw [mem_nbrs] at h ⊢
  omega

lemma nbrs_nodup (n m : Nat) (c : Cell) : (nbrs n m c).Nodup := by
  unfold nbrs
  split_ifs <;> simp [List.Nodup, Prod.ext_iff] <;> (repeat' apply And.intro) <;>
    (intros; omega)

lemma mem_allCells {n m : Nat} {c : Cell} :
    c ∈ allCells n m ↔ c.1 < n ∧ c.2 < m := by
  constructor
  · intro h
    simp only [allCells, List.mem_flatMap, List.mem_map, List.mem_range] at h
    obtain ⟨i, hi, j, hj, rfl⟩ := h
    exact ⟨hi, hj⟩
  · intro ⟨h1, h2⟩
    simp only [allCells, List.mem_flatMap, List.mem_map, List.mem_range]
    exact ⟨c.1, h1, c.2, h2, rfl⟩

lemma allCells_succ (n m : Nat) :
    allCells (n + 1) m = allCells n m ++ (List.range m).map (fun j => (n, j)) := by
  simp [allCells, List.range_succ]

lemma allCells_nodup (n m : Nat) : (allCells n m).Nodup := by
  induction n with
  | zero => simp [allCells]
  | succ n ih =>
    rw [allCells_succ]
    refine List.Nodup.append ih ?_ ?_
    · exact (List.nodup_range m).map (fun a b h => by simpa using congrArg Prod.snd h)
    · intro c hc hc'
      simp only [List.mem_map, List.mem_range] at hc'
      obtain ⟨j, _, rfl⟩ := hc'
      exact absurd (mem_allCells.mp hc).1 (by omega)

lemma allCells_length (n m : Nat) : (allCells n m).length = n * m := by
  induction n with
  | zero => simp [allCells]
  | succ n ih => rw [allCells_succ]; simp [ih, Nat.succ_mul]

/-- Any duplicate-free list included in another list is no longer than it. -/
lemma nodup_length_le {α : Type} [DecidableEq α] {l l' : List α}
    (hnd : l.Nodup) (hsub : l ⊆ l') : l.length ≤ l'.length := by
  classical
  calc l.length = l.toFinset.card := (List.toFinset_card_of_nodup hnd).symm
    _ ≤ l'.toFinset.card := Finset.card_le_card (fun a ha => by
        rw [List.mem_toFinset] at ha ⊢; exact hsub ha)
    _ ≤ l'.length := l'.toFinset_card_le

lemma getD_set_self {α : Type} (l : List α) (i : Nat) (x d : α) (h : i < l.length) :
    (l.set i x).getD i d = x := by
  induction l generalizing i with
  | nil => simp at h
  | cons a t ih =>
    cases i with
    | zero => simp
    | succ j => simpa using ih j (by simpa using h)

lemma getD_set_ne {α : Type} (l : List α) (i j : Nat) (x d : α) (h : i ≠ j) :
    (l.set i x).getD j d = l.getD j d := by
  induction l generalizing i j with
  | nil => simp
  | cons a t ih =>
    cases i with
    | zero => cases j with
      | zero => exact absurd rfl h
      | succ k => simp
    | succ i0 => cases j with
      | zero => simp
      | succ k => simpa using ih i0 k (by omega)

/-- Destructuring a length-4 list into its four elements. -/
lemma list_len4 {α : Type} {l : List α} (h : l.length = 4) :
    ∃ a b c d, l = [a, b, c, d] := by
  match l, h with
  | [a, b, c, d], _ => exact ⟨a, b, c, d, rfl⟩

/-! ### Correctness of the BFS connectivity check -/

lemma mem_filter_decide {p : Cell → Prop} [DecidablePred p] {l : List Cell} {x : Cell} :
    x ∈ l.filter (fun d => decide (p d)) ↔ x ∈ l ∧ p x := by
  simp [List.mem_filter]

/-- Cells reachable by `AdjStep` stay inside the region (or are the start). -/
lemma reach_mem {n m : Nat} {s : List Cell} {a x : Cell}
    (h : Relation.ReflTransGen (AdjStep n m s) a x) : x = a ∨ x ∈ s := by
  induction h with
  | refl => exact Or.inl rfl
  | tail _ hstep _ => exact Or.inr hstep.2

/-- Reachability inside a region of in-bounds cells is symmetric. -/
lemma reach_symm {n m : Nat} {s : List Cell} (hb : ∀ c ∈ s, c.1 < n ∧ c.2 < m)
    {a b : Cell} (ha : a ∈ s)
    (h : Relation.ReflTransGen (AdjStep n m s) a b) :
    Relation.ReflTransGen (AdjStep n m s) b a := by
  induction h with
  | refl => exact Relation.ReflTransGen.refl
  | tail hax hstep ih =>
    rename_i x y
    have hx : x ∈ s := by
      rcases reach_mem hax with rfl | hx
      · exact ha
      · exact hx
    have hxb : x.1 < n ∧ x.2 < m := hb x hx
    exact Relation.ReflTransGen.head ⟨nbrs_symm hxb.1 hxb.2 hstep.1, hx⟩ ih

/-- Main invariant of the BFS queue loop: starting from a duplicate-free
visited list that contains the queue, is contained in the region, is closed
at every non-queued cell, consists of cells reachable from `c0`, and given
enough fuel, the final visited list is duplicate-free, extends the initial
one, stays inside the region, contains only cells reachable from `c0`, and is
closed under in-region neighbour steps. -/
lemma bfsAux_spec (n m : Nat) (region : List Cell) (c0 : Cell) :
    ∀ (fuel : Nat) (q v : List Cell),
      v.Nodup → (∀ x ∈ q, x ∈ v) → (∀ x ∈ v, x ∈ region) →
      (∀ x ∈ v, x ∉ q → ∀ d ∈ nbrs n m x, d ∈ region → d ∈ v) →
      (∀ x ∈ v, Relation.ReflTransGen (AdjStep n m region) c0 x) →
      q.length + (region.toFinset \ v.toFinset).card ≤ fuel →
      ((bfsAux n m region fuel q v).Nodup ∧
        (∀ x ∈ v, x ∈ bfsAux n m region fuel q v) ∧
        (∀ x ∈ bfsAux n m region fuel q v, x ∈ region) ∧
        (∀ x ∈ bfsAux n m region fuel q v,
          Relation.ReflTransGen (AdjStep n m region) c0 x) ∧
        (∀ x ∈ bfsAux n m region fuel q v, ∀ d ∈ nbrs n m x, d ∈ region →
          d ∈ bfsAux n m region fuel q v)) := by
  intro fuel
  induction fuel with
  | zero =>
    intro q v hnd hqv hvr hcl hsound hfuel
    have hq : q = [] := List.eq_nil_of_length_eq_zero (by omega)
    subst hq
    exact ⟨hnd, fun x hx => hx, hvr, hsound,
      fun x hx d hd hdr => hcl x hx (by simp) d hd hdr⟩
  | succ fuel ih =>
    intro q v hnd hqv hvr hcl hsound hfuel
    match q with
    | [] =>
      exact ⟨hnd, fun x hx => hx, hvr, hsound,
        fun x hx d hd hdr => hcl x hx (by simp) d hd hdr⟩
    | c :: qrest =>
      have hstep : bfsAux n m region (fuel + 1) (c :: qrest) v =
          bfsAux n m region fuel
            (qrest ++ (nbrs n m c).filter (fun d => decide (d ∈ region ∧ d ∉ v)))
            (v ++ (nbrs n m c).filter (fun d => decide (d ∈ region ∧ d ∉ v))) := rfl
      set fresh := (nbrs n m c).filter (fun d => decide (d ∈ region ∧ d ∉ v)) with hfresh
      have hfresh_mem : ∀ x, x ∈ fresh ↔ x ∈ nbrs n m c ∧ x ∈ region ∧ x ∉ v := by
        intro x
        rw [hfresh]
        constructor
        · intro hx
          have := mem_filter_decide.mp hx
          exact ⟨this.1, this.2.1, this.2.2⟩
        · intro hx
          exact mem_filter_decide.mpr ⟨hx.1, hx.2.1, hx.2.2⟩
      have hcv : c ∈ v := hqv c (by simp)
      have hfresh_nd : fresh.Nodup := (nbrs_nodup n m c).filter _
      have hnd' : (v ++ fresh).Nodup := by
        refine List.Nodup.append hnd hfresh_nd ?_
        intro x hxv hxf
        exact ((hfresh_mem x).mp hxf).2.2 hxv
      have hqv' : ∀ x ∈ qrest ++ fresh, x ∈ v ++ fresh := by
        intro x hx
        rcases List.mem_append.mp hx with hx | hx
        · exact List.mem_append.mpr (Or.inl (hqv x (by simp [hx])))
        · exact List.mem_append.mpr (Or.inr hx)
      have hvr' : ∀ x ∈ v ++ fresh, x ∈ region := by
        intro x hx
        rcases List.mem_append.mp hx with hx | hx
        · exact hvr x hx
        · exact ((hfresh_mem x).mp hx).2.1
      have hcl' : ∀ x ∈ v ++ fresh, x ∉ qrest ++ fresh →
          ∀ d ∈ nbrs n m x, d ∈ region → d ∈ v ++ fresh := by
        intro x hx hxq d hd hdr
        have hxv : x ∈ v := by
          rcases List.mem_append.mp hx with hx | hx
          · exact hx
          · exact absurd (List.mem_append.mpr (Or.inr hx)) hxq
        by_cases hxc : x = c
        · subst hxc
          by_cases hdv : d ∈ v
          · exact List.mem_append.mpr (Or.inl hdv)
          · exact List.mem_append.mpr (Or.inr ((hfresh_mem d).mpr ⟨hd, hdr, hdv⟩))
        · have hxnq : x ∉ c :: qrest := by
            intro hmem
            rcases List.mem_cons.mp hmem with h | h
            · exact hxc h
            · exact hxq (List.mem_append.mpr (Or.inl h))
          exact List.mem_append.mpr (Or.inl (hcl x hxv hxnq d hd hdr))
      have hsound' : ∀ x ∈ v ++ fresh,
          Relation.ReflTransGen (AdjStep n m region) c0 x := by
        intro x hx
        rcases List.mem_append.mp hx with hx | hx
        · exact hsound x hx
        · have hm := (hfresh_mem x).mp hx
          exact Relation.ReflTransGen.tail (hsound c hcv) ⟨hm.1, hm.2.1⟩
      have hfuel' : (qrest ++ fresh).length +
          (region.toFinset \ (v ++ fresh).toFinset).card ≤ fuel := by
        have hsub : fresh.toFinset ⊆ region.toFinset \ v.toFinset := by
          intro x hx
          rw [List.mem_toFinset] at hx
          have hm := (hfresh_mem x).mp hx
          rw [Finset.mem_sdiff, List.mem_toFinset, List.mem_toFinset]
          exact ⟨hm.2.1, hm.2.2⟩
        have hcard : (region.toFinset \ (v ++ fresh).toFinset).card =
            (region.toFinset \ v.toFinset).card - fresh.length := by
          have : region.toFinset \ (v ++ fresh).toFinset =
              (region.toFinset \ v.toFinset) \ fresh.toFinset := by
            ext x
            simp [Finset.mem_sdiff, List.mem_toFinset, and_assoc, And.comm]
          rw [this, Finset.card_sdiff hsub, List.toFinset_card_of_nodup hfresh_nd]
        have hge : fresh.length ≤ (region.toFinset \ v.toFinset).card := by
          calc fresh.length = fresh.toFinset.card :=
                (List.toFinset_card_of_nodup hfresh_nd).symm
            _ ≤ (region.toFinset \ v.toFinset).card := Finset.card_le_card hsub
        have hlen : (qrest ++ fresh).length = qrest.length + fresh.length := by
          simp
        have hfuel0 : (c :: qrest).length +
            (region.toFinset \ v.toFinset).card ≤ fuel + 1 := hfuel
        simp only [List.length_cons] at hfuel0
        omega
      rw [hstep]
      obtain ⟨h1, h2, h3, h4, h5⟩ :=
        ih (qrest ++ fresh) (v ++ fresh) hnd' hqv' hvr' hcl' hsound' hfuel'
      exact ⟨h1, fun x hx => h2 x (List.mem_append.mpr (Or.inl hx)), h3, h4, h5⟩

/-- The BFS check on a duplicate-free region answers exactly: every cell of the
region is reachable from its first cell. -/
lemma check_connected_cons_iff (c0 : Cell) (rest : List Cell) (n m : Nat)
    (hnd : (c0 :: rest).Nodup) :
    check_connected (c0 :: rest) n m = true ↔
      ∀ c ∈ c0 :: rest, Relation.ReflTransGen (AdjStep n m (c0 :: rest)) c0 c := by
  match rest with
  | [] =>
    simp only [check_connected, List.length_cons, List.length_nil]
    norm_num
    exact Relation.ReflTransGen.refl
  | c1 :: rest1 =>
    set region := c0 :: c1 :: rest1 with hregion
    have hlen : ¬ region.length ≤ 1 := by simp [hregion]
    have hcheck : check_connected region n m =
        ((bfsAux n m region region.length [c0] [c0]).length == region.length) := by
      rw [check_connected]
      simp only [hlen, if_false]
    have hc0r : c0 ∈ region := by simp [hregion]
    obtain ⟨hwnd, hvw, hwr, hwsound, hwclosed⟩ :=
      bfsAux_spec n m region c0 region.length [c0] [c0]
        (by simp) (by simp) (by simpa using hc0r)
        (by intro x hx hxq; simp at hx hxq; exact absurd hx hxq)
        (by intro x hx; rw [List.mem_singleton] at hx; subst hx; exact .refl)
        (by
          have h1 : ({c0} : Finset Cell) ⊆ region.toFinset := by
            intro x hx
            rw [Finset.mem_singleton] at hx
            subst hx
            exact List.mem_toFinset.mpr hc0r
          have h2 : (region.toFinset \ ([c0] : List Cell).toFinset).card =
              region.toFinset.card - 1 := by
            simp only [List.toFinset_cons, List.toFinset_nil,
              insert_emptyc_eq]
            rw [Finset.card_sdiff h1, Finset.card_singleton]
          have h3 : region.toFinset.card ≤ region.length := region.toFinset_card_le
          have h4 : 1 ≤ region.toFinset.card :=
            Finset.card_pos.mpr ⟨c0, List.mem_toFinset.mpr hc0r⟩
          simp only [List.length_singleton, h2]
          omega)
    set w := bfsAux n m region region.length [c0] [c0] with hw
    have hc0w : c0 ∈ w := hvw c0 (by simp)
    rw [hcheck]
    constructor
    · intro hbeq c hcr
      have hlw : w.length = region.length := beq_iff_eq.mp hbeq
      have hsub : w.toFinset ⊆ region.toFinset := by
        intro x hx
        exact List.mem_toFinset.mpr (hwr x (List.mem_toFinset.mp hx))
      have hcards : region.toFinset.card ≤ w.toFinset.card := by
        rw [List.toFinset_card_of_nodup hwnd, List.toFinset_card_of_nodup hnd]
        omega
      have heq : w.toFinset = region.toFinset :=
        Finset.eq_of_subset_of_card_le hsub hcards
      have hcw : c ∈ w := by
        rw [← List.mem_toFinset, heq, List.mem_toFinset]
        exact hcr
      exact hwsound c hcw
    · intro hreach
      have hrw : ∀ c ∈ region, c ∈ w := by
        intro c hcr
        have h := hreach c hcr
        clear hcr
        induction h with
        | refl => exact hc0w
        | tail _ hstep ih => exact hwclosed _ ih _ hstep.1 hstep.2
      have hsub1 : w ⊆ region := hwr
      have hlen1 : w.length ≤ region.length := nodup_length_le hwnd hsub1
      have hlen2 : region.length ≤ w.length := nodup_length_le hnd hrw
      have hleq : w.length = region.length := by omega
      exact beq_iff_eq.mpr hleq

/-- Membership-equivalent regions have the same abstract connectivity. -/
lemma regionConnected_congr {l l2 : List Cell} {n m : Nat}
    (h : ∀ x, x ∈ l ↔ x ∈ l2) : RegionConnected l n m → RegionConnected l2 n m := by
  intro hc a ha b hb
  have := hc a ((h a).mpr ha) b ((h b).mpr hb)
  exact this.mono (fun x y hxy => ⟨hxy.1, (h y).mp hxy.2⟩)

/-- For a duplicate-free region of in-bounds cells, the BFS check decides the
abstract edge-connectivity predicate of the specification. -/
lemma check_connected_iff (region : List Cell) (n m : Nat)
    (hnd : region.Nodup) (hb : ∀ c ∈ region, c.1 < n ∧ c.2 < m) :
    check_connected region n m = true ↔ RegionConnected region n m := by
  match region with
  | [] =>
    constructor
    · intro _ a ha
      exact absurd ha (List.not_mem_nil a)
    · intro _
      rfl
  | c0 :: rest =>
    rw [check_connected_cons_iff c0 rest n m hnd]
    constructor
    · intro h a ha b hbmem
      have h1 : Relation.ReflTransGen (AdjStep n m (c0 :: rest)) c0 a := h a ha
      have h2 : Relation.ReflTransGen (AdjStep n m (c0 :: rest)) c0 b := h b hbmem
      exact Relation.ReflTransGen.trans (reach_symm hb (by simp) h1) h2
    · intro h c hc
      exact h c0 (by simp) c hc

/-! ### Labellings and their induced regions -/

lemma mem_regionOfLabel {labels : List Nat} {m dev : Nat} {c : Cell} :
    c ∈ regionOfLabel labels m dev ↔
      ∃ idx, idx < labels.length ∧ labels.getD idx 4 = dev ∧ c = (idx / m, idx % m) := by
  simp only [regionOfLabel, List.mem_map, List.mem_filter, List.mem_range, beq_iff_eq]
  constructor
  · rintro ⟨idx, ⟨h1, h2⟩, rfl⟩
    exact ⟨idx, h1, h2, rfl⟩
  · rintro ⟨idx, h1, h2, rfl⟩
    exact ⟨idx, ⟨h1, h2⟩, rfl⟩

lemma getD_labels_to_regions {labels : List Nat} {n m : Nat} {d : Nat} (hd : d < 4) :
    (labels_to_regions labels n m).getD d [] = regionOfLabel labels m d := by
  interval_cases d <;> rfl

lemma length_labels_to_regions {labels : List Nat} {n m : Nat} :
    (labels_to_regions labels n m).length = 4 := rfl

/-- For a cell written with explicit coordinates below `n` and `m`, membership
in the region of `dev` is exactly: the label at its row-major index is `dev`. -/
lemma mem_regionOfLabel_cell {labels : List Nat} {n m dev : Nat} {c : Cell}
    (hm : 0 < m) (hlen : labels.length = n * m) (h1 : c.1 < n) (h2 : c.2 < m) :
    c ∈ regionOfLabel labels m dev ↔ labels.getD (c.1 * m + c.2) 4 = dev := by
  rw [mem_regionOfLabel]
  constructor
  · rintro ⟨idx, hidx, hlab, hc⟩
    have e1 : c.1 = idx / m := congrArg Prod.fst hc
    have e2 : c.2 = idx % m := congrArg Prod.snd hc
    have : c.1 * m + c.2 = idx := by
      rw [e1, e2, Nat.div_add_mod']
    rw [this]
    exact hlab
  · intro hlab
    refine ⟨c.1 * m + c.2, ?_, hlab, ?_⟩
    · rw [hlen]
      calc c.1 * m + c.2 < c.1 * m + m := by omega
        _ = (c.1 + 1) * m := by ring
        _ ≤ n * m := Nat.mul_le_mul_right m (by omega)
    · have ediv : (c.1 * m + c.2) / m = c.1 := by
        rw [Nat.mul_comm, Nat.mul_add_div hm, Nat.div_eq_of_lt h2]
        omega
      have emod : (c.1 * m + c.2) % m = c.2 := by
        rw [Nat.mul_add_mod']
        exact Nat.mod_eq_of_lt h2
      rw [ediv, emod]

lemma regionOfLabel_bounds {labels : List Nat} {n m dev : Nat}
    (hm : 0 < m) (hlen : labels.length = n * m) :
    ∀ c ∈ regionOfLabel labels m dev, c.1 < n ∧ c.2 < m := by
  intro c hc
  rw [mem_regionOfLabel] at hc
  obtain ⟨idx, hidx, _, rfl⟩ := hc
  rw [hlen] at hidx
  constructor
  · exact Nat.div_lt_of_lt_mul (by rw [Nat.mul_comm] at hidx; exact hidx)
  · exact Nat.mod_lt idx hm

lemma regionOfLabel_nodup {labels : List Nat} {m dev : Nat} :
    (regionOfLabel labels m dev).Nodup := by
  refine List.Nodup.map_on ?_ ((List.nodup_range labels.length).filter _)
  intro x hx y hy hxy
  have e1 : x / m = y / m := congrArg Prod.fst hxy
  have e2 : x % m = y % m := congrArg Prod.snd hxy
  calc x = m * (x / m) + x % m := (Nat.div_add_mod x m).symm
    _ = m * (y / m) + y % m := by rw [e1, e2]
    _ = y := Nat.div_add_mod y m

lemma length_allLabels (k : Nat) : (allLabels k).length = 4 ^ k := by
  induction k with
  | zero => rfl
  | succ k ih =>
    show ((List.range 4).flatMap (fun d => (allLabels k).map (fun L => d :: L))).length =
      4 ^ (k + 1)
    rw [List.length_flatMap, show List.range 4 = [0, 1, 2, 3] from rfl]
    simp only [List.map_cons, List.map_nil, List.length_map, List.sum_cons,
      List.sum_nil, Function.comp, ih]
    ring

lemma mem_allLabels {k : Nat} {L : List Nat} :
    L ∈ allLabels k ↔ L.length = k ∧ ∀ x ∈ L, x < 4 := by
  induction k generalizing L with
  | zero =>
    simp only [allLabels]
    constructor
    · rintro h
      rw [List.mem_singleton] at h
      subst h
      simp
    · intro ⟨h1, _⟩
      rw [List.mem_singleton]
      exact List.eq_nil_of_length_eq_zero h1
  | succ k ih =>
    show L ∈ (List.range 4).flatMap (fun d => (allLabels k).map (fun M => d :: M)) ↔ _
    simp only [List.mem_flatMap, List.mem_map, List.mem_range]
    constructor
    · rintro ⟨d, hd, M, hM, rfl⟩
      obtain ⟨hlen, hall⟩ := ih.mp hM
      refine ⟨by simp [hlen], ?_⟩
      intro x hx
      rcases List.mem_cons.mp hx with rfl | hx
      · exact hd
      · exact hall x hx
    · rintro ⟨hlen, hall⟩
      match L with
      | [] => simp at hlen
      | d :: M =>
        refine ⟨d, hall d (by simp), M, ih.mpr ⟨by simpa using hlen, ?_⟩, rfl⟩
        intro x hx
        exact hall x (by simp [hx])

/-- Unfolding the candidate filter: every region non-empty and every region
passing the BFS check. -/
lemma validRegionsB_iff {regions : List (List Cell)} {n m : Nat} :
    validRegionsB regions n m = true ↔
      (∀ r ∈ regions, r ≠ []) ∧ (∀ r ∈ regions, check_connected r n m = true) := by
  simp only [validRegionsB, all_regions_connected, Bool.and_eq_true, Bool.not_eq_true',
    List.any_eq_false, List.all_eq_true, Bool.or_eq_true, List.isEmpty_iff]
  constructor
  · intro ⟨h1, h2⟩
    refine ⟨h1, ?_⟩
    intro r hr
    rcases h2 r hr with h | h
    · exact absurd h (h1 r hr)
    · exact h
  · intro ⟨h1, h2⟩
    exact ⟨h1, fun r hr => Or.inr (h2 r hr)⟩

/-! ### Characterisation of the brute-force enumeration loop -/

/-- Objective value of the partition induced by a labelling. -/
def objL (matrix : CostMatrix) (n m : Nat) (L : List Nat) : Int :=
  calculate_objective_value matrix (labels_to_regions L n m)

/-- Validity (per the brute-force filter) of the partition induced by a labelling. -/
def validL (n m : Nat) (L : List Nat) : Prop :=
  validRegionsB (labels_to_regions L n m) n m = true

instance (n m : Nat) (L : List Nat) : Decidable (validL n m L) := by
  unfold validL
  infer_instance

/-- Meaning of the running best of the brute-force loop after processing `P`:
either nothing valid was seen, or the best is the first valid labelling of `P`
whose objective attains the minimum over all valid labellings of `P`. -/
def AccInv (matrix : CostMatrix) (n m : Nat) (P : List (List Nat))
    (acc : Option (List (List Cell) × Int)) : Prop :=
  match acc with
  | none => ∀ L ∈ P, ¬ validL n m L
  | some (regs, v) =>
    ∃ pre L post, P = pre ++ L :: post ∧ validL n m L ∧
      regs = labels_to_regions L n m ∧ v = objL matrix n m L ∧
      (∀ L2 ∈ pre, validL n m L2 → v < objL matrix n m L2) ∧
      (∀ L2 ∈ P, validL n m L2 → v ≤ objL matrix n m L2)

lemma bruteLoop_spec (matrix : CostMatrix) (n m : Nat) :
    ∀ (todo processed : List (List Nat)) (best : Option (List (List Cell) × Int))
      (count : Nat), AccInv matrix n m processed best →
      (bruteLoop matrix n m todo best count).2 = count + todo.length ∧
      AccInv matrix n m (processed ++ todo) (bruteLoop matrix n m todo best count).1 := by
  intro todo
  induction todo with
  | nil =>
    intro processed best count hinv
    simpa [bruteLoop] using hinv
  | cons labels rest ih =>
    intro processed best count hinv
    have hps : processed ++ labels :: rest = (processed ++ [labels]) ++ rest := by
      simp
    by_cases hvalid : validL n m labels
    · have hvB : validRegionsB (labels_to_regions labels n m) n m = true := hvalid
      match best with
      | none =>
        have hstep : bruteLoop matrix n m (labels :: rest) none count =
            bruteLoop matrix n m rest
              (some (labels_to_regions labels n m,
                calculate_objective_value matrix (labels_to_regions labels n m)))
              (count + 1) := by
          simp [bruteLoop, hvB]
        rw [hstep, hps]
        have hinv' : AccInv matrix n m (processed ++ [labels])
            (some (labels_to_regions labels n m,
              calculate_objective_value matrix (labels_to_regions labels n m))) := by
          refine ⟨processed, labels, [], by simp, hvalid, rfl, rfl, ?_, ?_⟩
          · intro L2 hL2 hL2v
            exact absurd hL2v (hinv L2 hL2)
          · intro L2 hL2 hL2v
            rcases List.mem_append.mp hL2 with h | h
            · exact absurd hL2v (hinv L2 h)
            · rw [List.mem_singleton] at h
              subst h
              exact le_refl _
        have := ih (processed ++ [labels]) _ (count + 1) hinv'
        refine ⟨?_, this.2⟩
        rw [this.1]
        simp
        omega
      | some (bregs, bv) =>
        obtain ⟨pre, L0, post, hP, hL0v, hbregs, hbv, hpre, hglob⟩ := hinv
        by_cases hlt : objL matrix n m labels < bv
        · have hstep : bruteLoop matrix n m (labels :: rest) (some (bregs, bv)) count =
              bruteLoop matrix n m rest
                (some (labels_to_regions labels n m,
                  calculate_objective_value matrix (labels_to_regions labels n m)))
                (count + 1) := by
            simp only [bruteLoop, hvB, if_true]
            have : calculate_objective_value matrix (labels_to_regions labels n m) < bv :=
              hlt
            simp [this]
          rw [hstep, hps]
          have hinv' : AccInv matrix n m (processed ++ [labels])
              (some (labels_to_regions labels n m,
                calculate_objective_value matrix (labels_to_regions labels n m))) := by
            refine ⟨processed, labels, [], by simp, hvalid, rfl, rfl, ?_, ?_⟩
            · intro L2 hL2 hL2v
              have : bv ≤ objL matrix n m L2 := hglob L2 (by rw [hP] at hL2 ⊢; exact hL2) hL2v
              calc objL matrix n m labels < bv := hlt
                _ ≤ objL matrix n m L2 := this
            · intro L2 hL2 hL2v
              rcases List.mem_append.mp hL2 with h | h
              · have : bv ≤ objL matrix n m L2 := hglob L2 h hL2v
                have h2 : objL matrix n m labels < bv := hlt
                exact le_of_lt (lt_of_lt_of_le h2 this)
              · rw [List.mem_singleton] at h
                subst h
                exact le_refl _
          have := ih (processed ++ [labels]) _ (count + 1) hinv'
          refine ⟨?_, this.2⟩
          rw [this.1]
          simp
          omega
        · have hstep : bruteLoop matrix n m (labels :: rest) (some (bregs, bv)) count =
              bruteLoop matrix n m rest (some (bregs, bv)) (count + 1) := by
            simp only [bruteLoop, hvB, if_true]
            have : ¬ calculate_objective_value matrix (labels_to_regions labels n m) < bv :=
              hlt
            simp [this]
          rw [hstep, hps]
          have hinv' : AccInv matrix n m (processed ++ [labels]) (some (bregs, bv)) := by
            refine ⟨pre, L0, post ++ [labels], by rw [hP]; simp, hL0v, hbregs, hbv, hpre, ?_⟩
            intro L2 hL2 hL2v
            rcases List.mem_append.mp hL2 with h | h
            · exact hglob L2 h hL2v
            · rw [List.mem_singleton] at h
              subst h
              omega
          have := ih (processed ++ [labels]) _ (count + 1) hinv'
          refine ⟨?_, this.2⟩
          rw [this.1]
          simp
          omega
    · have hvB : validRegionsB (labels_to_regions labels n m) n m = false := by
        rw [← Bool.not_eq_true]
        exact hvalid
      have hstep : bruteLoop matrix n m (labels :: rest) best count =
          bruteLoop matrix n m rest best (count + 1) := by
        simp [bruteLoop, hvB]
      rw [hstep, hps]
      have hinv' : AccInv matrix n m (processed ++ [labels]) best := by
        match best with
        | none =>
          intro L2 hL2
          rcases List.mem_append.mp hL2 with h | h
          · exact hinv L2 h
          · rw [List.mem_singleton] at h
            subst h
            exact hvalid
        | some (bregs, bv) =>
          obtain ⟨pre, L0, post, hP, hL0v, hbregs, hbv, hpre, hglob⟩ := hinv
          refine ⟨pre, L0, post ++ [labels], by rw [hP]; simp, hL0v, hbregs, hbv, hpre, ?_⟩
          intro L2 hL2 hL2v
          rcases List.mem_append.mp hL2 with h | h
          · exact hglob L2 h hL2v
          · rw [List.mem_singleton] at h
            subst h
            exact absurd hL2v hvalid
      have := ih (processed ++ [labels]) _ (count + 1) hinv'
      refine ⟨?_, this.2⟩
      rw [this.1]
      simp
      omega

lemma headD_length {matrix : CostMatrix} {n m : Nat} (hrect : Rect matrix n m)
    (hn : 0 < n) : (matrix.headD []).length = m := by
  match matrix, hrect with
  | [], ⟨h1, _⟩ => rw [← h1] at hn; simp at hn
  | row :: rest, ⟨h1, h2⟩ => exact h2 row (by simp)

lemma matrix_ne_nil {matrix : CostMatrix} {n m : Nat} (hrect : Rect matrix n m)
    (hn : 0 < n) : matrix ≠ [] := by
  intro h
  subst h
  rw [← hrect.1] at hn
  simp at hn

lemma brute_force_eq_loop (matrix : CostMatrix) (n m : Nat)
    (hrect : Rect matrix n m) (hn : 0 < n) (hm : 0 < m) (h16 : n * m ≤ 16) :
    brute_force_allocation matrix =
      (match bruteLoop matrix n m (allLabels (n * m)) none 0 with
       | (none, count) => ([[], [], [], []], count)
       | (some (best_regions, _), count) => (best_regions, count)) := by
  have hne : matrix ≠ [] := matrix_ne_nil hrect hn
  have hhead : (matrix.headD []).length = m := headD_length hrect hn
  have hheadne : ¬ (matrix = [] ∨ matrix.headD [] = []) := by
    rintro (h | h)
    · exact hne h
    · rw [h] at hhead
      simp at hhead
      omega
  rw [brute_force_allocation]
  simp only [hheadne, if_false, hrect.1, hhead]
  have : ¬ n * m > 16 := by omega
  simp only [this, if_false]

/-- Witness labelling: developers 0, 1, 2 get the first three row-major cells,
developer 3 the rest. -/
def wl (n m : Nat) : List Nat := [0, 1, 2] ++ List.replicate (n * m - 3) 3

set_option maxRecDepth 40000 in
lemma wl_valid : ∀ n < 17, ∀ m < 17, 4 ≤ n * m → n * m ≤ 16 →
    validL n m (wl n m) := by decide

lemma exists_valid_labels (n m : Nat) (h4 : 4 ≤ n * m) (h16 : n * m ≤ 16) :
    validL n m (wl n m) ∧ wl n m ∈ allLabels (n * m) := by
  have hn : 1 ≤ n := by
    by_contra h
    push_neg at h
    interval_cases n <;> omega
  have hm : 1 ≤ m := by
    by_contra h
    push_neg at h
    interval_cases m
    simp at h4
  have hn17 : n < 17 := by nlinarith
  have hm17 : m < 17 := by nlinarith
  refine ⟨wl_valid n hn17 m hm17 h4 h16, mem_allLabels.mpr ⟨?_, ?_⟩⟩
  · simp [wl]
    omega
  · intro x hx
    simp only [wl, List.mem_append, List.mem_replicate, List.mem_cons,
      List.not_mem_nil, or_false] at hx
    omega

/-- Full characterisation of the brute-force result on grids with
`4 ≤ n*m ≤ 16`: the returned partition is induced by a valid labelling, the
count is `4^(n*m)`, the objective is minimal over all valid labellings, and the
returned labelling is the first minimiser in enumeration order. -/
lemma brute_force_char (matrix : CostMatrix) (n m : Nat)
    (hrect : Rect matrix n m) (h4 : 4 ≤ n * m) (h16 : n * m ≤ 16) :
    ∃ L ∈ allLabels (n * m),
      validL n m L ∧ (brute_force_allocation matrix).1 = labels_to_regions L n m ∧
      (brute_force_allocation matrix).2 = 4 ^ (n * m) ∧
      (∀ L2 ∈ allLabels (n * m), validL n m L2 →
        objL matrix n m L ≤ objL matrix n m L2) ∧
      (∃ pre post, allLabels (n * m) = pre ++ L :: post ∧
        ∀ L2 ∈ pre, validL n m L2 → objL matrix n m L < objL matrix n m L2) := by
  have hn : 0 < n := by
    by_contra h
    push_neg at h
    interval_cases n <;> omega
  have hm : 0 < m := by
    by_contra h
    push_neg at h
    interval_cases m <;> omega
  have hrun := brute_force_eq_loop matrix n m hrect hn hm h16
  have hspec := bruteLoop_spec matrix n m (allLabels (n * m)) [] none 0
    (by intro L hL; exact absurd hL (List.not_mem_nil L))
  rw [List.nil_append] at hspec
  obtain ⟨hvalid0, hmem0⟩ := exists_valid_labels n m h4 h16
  match hloop : bruteLoop matrix n m (allLabels (n * m)) none 0 with
  | (none, count) =>
    rw [hloop] at hspec
    exact absurd hvalid0 (hspec.2 (wl n m) hmem0)
  | (some (bregs, bv), count) =>
    rw [hloop] at hspec
    have hcount := hspec.1
    have hacc := hspec.2
    rw [AccInv] at hacc
    obtain ⟨pre, L, post, hP, hLv, hbregs, hbv, hpre, hglob⟩ := hacc
    refine ⟨L, by rw [hP]; simp, hLv, ?_, ?_, ?_, pre, post, hP, ?_⟩
    · rw [hrun, hloop, hbregs]
    · rw [hrun, hloop]
      show count = 4 ^ (n * m)
      simp only [] at hcount
      rw [length_allLabels] at hcount
      omega
    · intro L2 hL2 hL2v
      have := hglob L2 hL2 hL2v
      rw [hbv] at this
      exact this
    · intro L2 hL2 hL2v
      have := hpre L2 hL2 hL2v
      rw [hbv] at this
      exact this

lemma getD_mem {α : Type} {l : List α} {i : Nat} (d : α) (h : i < l.length) :
    l.getD i d ∈ l := by
  induction l generalizing i with
  | nil => simp at h
  | cons a t ih =>
    cases i with
    | zero => simp
    | succ j =>
      have := @ih j (by simpa using h)
      simpa using Or.inr this

lemma getD_map_range {α : Type} : ∀ (k i : Nat) (f : Nat → α) (d : α), i < k →
    ((List.range k).map f).getD i d = f i := by
  intro k
  induction k with
  | zero => intro i f d h; omega
  | succ k ih =>
    intro i f d h
    rw [List.range_succ_eq_map]
    cases i with
    | zero => simp
    | succ j =>
      simp only [List.map_cons, List.map_map, List.getD_cons_succ]
      have := ih j (f ∘ Nat.succ) d (by omega)
      simpa using this

/-- The partition induced by any labelling of the right length over `{0,..,3}`
is a disjoint exact cover of the grid. -/
lemma l2r_disjoint_cover {n m : Nat} {L : List Nat} (hm : 0 < m)
    (hlen : L.length = n * m) (hall : ∀ x ∈ L, x < 4) :
    DisjointCover (labels_to_regions L n m) n m := by
  refine ⟨?_, ?_, ?_⟩
  · intro d1 hd1 d2 hd2 hne c hc1 hc2
    rw [getD_labels_to_regions hd1] at hc1
    rw [getD_labels_to_regions hd2] at hc2
    have hb := regionOfLabel_bounds hm hlen c hc1
    rw [mem_regionOfLabel_cell hm hlen hb.1 hb.2] at hc1 hc2
    exact hne (hc1 ▸ hc2 ▸ rfl)
  · intro c
    constructor
    · intro hc
      have hb := mem_allCells.mp hc
      have hidx : c.1 * m + c.2 < L.length := by
        rw [hlen]
        calc c.1 * m + c.2 < c.1 * m + m := by omega
          _ = (c.1 + 1) * m := by ring
          _ ≤ n * m := Nat.mul_le_mul_right m (by omega)
      have hmem : L.getD (c.1 * m + c.2) 4 ∈ L := getD_mem 4 hidx
      have hlt : L.getD (c.1 * m + c.2) 4 < 4 := hall _ hmem
      refine ⟨L.getD (c.1 * m + c.2) 4, hlt, ?_⟩
      rw [getD_labels_to_regions hlt]
      exact (mem_regionOfLabel_cell hm hlen hb.1 hb.2).mpr rfl
    · rintro ⟨d, hd, hc⟩
      rw [getD_labels_to_regions hd] at hc
      have hb := regionOfLabel_bounds hm hlen c hc
      exact mem_allCells.mpr hb
  · intro d hd
    rw [getD_labels_to_regions hd]
    exact regionOfLabel_nodup

/-- The partition induced by a labelling passing the brute-force filter has
non-empty, abstractly edge-connected regions. -/
lemma l2r_valid_connected {n m : Nat} {L : List Nat} (hm : 0 < m)
    (hlen : L.length = n * m) (hv : validL n m L) :
    ∀ d < 4, (labels_to_regions L n m).getD d [] ≠ [] ∧
      RegionConnected ((labels_to_regions L n m).getD d []) n m := by
  intro d hd
  rw [validL, validRegionsB_iff] at hv
  have hmem : (labels_to_regions L n m).getD d [] ∈ labels_to_regions L n m := by
    rw [getD_labels_to_regions hd]
    interval_cases d
    · exact List.mem_cons_self _ _
    · simp [labels_to_regions]
    · simp [labels_to_regions]
    · simp [labels_to_regions]
  refine ⟨hv.1 _ hmem, ?_⟩
  have hcheck := hv.2 _ hmem
  rw [getD_labels_to_regions hd] at hcheck ⊢
  exact (check_connected_iff _ n m regionOfLabel_nodup
    (regionOfLabel_bounds hm hlen)).mp hcheck

/-! ### Bridge: an abstract valid partition induces a valid labelling -/

/-- Index (0–3) of the region containing a cell (3 when none does). -/
def labelIdx (regions : List (List Cell)) (c : Cell) : Nat :=
  if c ∈ regions.getD 0 [] then 0
  else if c ∈ regions.getD 1 [] then 1
  else if c ∈ regions.getD 2 [] then 2
  else 3

/-- Row-major labelling induced by a partition. -/
def labelsOf (regions : List (List Cell)) (n m : Nat) : List Nat :=
  (List.range (n * m)).map (fun idx => labelIdx regions (idx / m, idx % m))

lemma labelsOf_length (regions : List (List Cell)) (n m : Nat) :
    (labelsOf regions n m).length = n * m := by
  simp [labelsOf]

lemma labelIdx_lt (regions : List (List Cell)) (c : Cell) : labelIdx regions c < 4 := by
  rw [labelIdx]
  split_ifs <;> omega

lemma labelIdx_eq_iff {regions : List (List Cell)} {n m : Nat}
    (hdc : DisjointCover regions n m) {c : Cell} (hc : c ∈ allCells n m)
    {d : Nat} (hd : d < 4) :
    labelIdx regions c = d ↔ c ∈ regions.getD d [] := by
  obtain ⟨d0, hd0, hcd0⟩ := (hdc.2.1 c).mp hc
  have hval : labelIdx regions c = d0 := by
    have hnot : ∀ d2 < 4, d2 ≠ d0 → c ∉ regions.getD d2 [] := by
      intro d2 h2 hne hmem
      exact hdc.1 d2 h2 d0 hd0 hne c hmem hcd0
    rw [labelIdx]
    interval_cases d0
    · rw [if_pos hcd0]
    · rw [if_neg (hnot 0 (by omega) (by omega)), if_pos hcd0]
    · rw [if_neg (hnot 0 (by omega) (by omega)), if_neg (hnot 1 (by omega) (by omega)),
        if_pos hcd0]
    · rw [if_neg (hnot 0 (by omega) (by omega)), if_neg (hnot 1 (by omega) (by omega)),
        if_neg (hnot 2 (by omega) (by omega))]
  constructor
  · intro h
    rw [hval] at h
    subst h
    exact hcd0
  · intro h
    by_cases hdd : d = d0
    · rw [hval, hdd]
    · exact absurd hcd0 (hdc.1 d hd d0 hd0 hdd c h)

lemma labelsOf_getD {regions : List (List Cell)} {n m : Nat} {c : Cell}
    (hm : 0 < m) (h1 : c.1 < n) (h2 : c.2 < m) :
    (labelsOf regions n m).getD (c.1 * m + c.2) 4 = labelIdx regions c := by
  have hidx : c.1 * m + c.2 < n * m := by
    calc c.1 * m + c.2 < c.1 * m + m := by omega
      _ = (c.1 + 1) * m := by ring
      _ ≤ n * m := Nat.mul_le_mul_right m (by omega)
  rw [labelsOf, getD_map_range _ _ _ _ hidx]
  have ediv : (c.1 * m + c.2) / m = c.1 := by
    rw [Nat.mul_comm, Nat.mul_add_div hm, Nat.div_eq_of_lt h2]
    omega
  have emod : (c.1 * m + c.2) % m = c.2 := by
    rw [Nat.mul_add_mod']
    exact Nat.mod_eq_of_lt h2
  rw [ediv, emod]

/-- The labelling induced by a disjoint cover reproduces its regions up to
permutation: membership in the induced region `d` coincides with membership in
the original region `d`. -/
lemma regionOfLabel_labelsOf {regions : List (List Cell)} {n m : Nat}
    (hm : 0 < m) (hdc : DisjointCover regions n m) {d : Nat} (hd : d < 4) :
    ∀ c : Cell, c ∈ regionOfLabel (labelsOf regions n m) m d ↔ c ∈ regions.getD d [] := by
  intro c
  constructor
  · intro hc
    rw [mem_regionOfLabel] at hc
    obtain ⟨idx, hidx, hlab, rfl⟩ := hc
    rw [labelsOf_length] at hidx
    have hb1 : idx / m < n := Nat.div_lt_of_lt_mul (by rw [Nat.mul_comm] at hidx; exact hidx)
    have hb2 : idx % m < m := Nat.mod_lt idx hm
    have hcell : ((idx / m : Nat), (idx % m : Nat)) ∈ allCells n m :=
      mem_allCells.mpr ⟨hb1, hb2⟩
    have hidx' : (idx / m) * m + idx % m = idx := Nat.div_add_mod' idx m
    rw [show idx = (idx / m) * m + idx % m from hidx'.symm] at hlab
    have hgd : (labelsOf regions n m).getD (idx / m * m + idx % m) 4 =
        labelIdx regions (idx / m, idx % m) := by
      have h0 := @labelsOf_getD regions n m ((idx / m : Nat), (idx % m : Nat))
        hm hb1 hb2
      simpa using h0
    rw [hgd] at hlab
    exact (labelIdx_eq_iff hdc hcell hd).mp hlab
  · intro hc
    have hcell : c ∈ allCells n m := (hdc.2.1 c).mpr ⟨d, hd, hc⟩
    have hb := mem_allCells.mp hcell
    rw [mem_regionOfLabel_cell hm (labelsOf_length regions n m) hb.1 hb.2,
      labelsOf_getD hm hb.1 hb.2]
    exact (labelIdx_eq_iff hdc hcell hd).mpr hc

/-- Any partition satisfying the abstract validity requirements (disjoint exact
cover, non-empty connected regions) is reproduced, up to per-region
permutation, by a labelling of the enumeration; the induced labelling passes
the brute-force filter and has the same objective value. -/
lemma valid_partition_labels (matrix : CostMatrix) {n m : Nat} (hm : 0 < m)
    (R : List (List Cell)) (hdc : DisjointCover R n m)
    (hne : ∀ d < 4, R.getD d [] ≠ [])
    (hconn : ∀ d < 4, RegionConnected (R.getD d []) n m) :
    labelsOf R n m ∈ allLabels (n * m) ∧ validL n m (labelsOf R n m) ∧
      calculate_objective_value matrix (labels_to_regions (labelsOf R n m) n m) =
        calculate_objective_value matrix R := by
  have hperm : ∀ d < 4, (regionOfLabel (labelsOf R n m) m d).Perm (R.getD d []) := by
    intro d hd
    have hnods : (regionOfLabel (labelsOf R n m) m d).Nodup := regionOfLabel_nodup
    have hnodR : (R.getD d []).Nodup := hdc.2.2 d hd
    exact (List.perm_ext_iff_of_nodup hnods hnodR).mpr (regionOfLabel_labelsOf hm hdc hd)
  have hbounds : ∀ d < 4, ∀ c ∈ R.getD d [], c.1 < n ∧ c.2 < m := by
    intro d hd c hc
    exact mem_allCells.mp ((hdc.2.1 c).mpr ⟨d, hd, hc⟩)
  refine ⟨?_, ?_, ?_⟩
  · refine mem_allLabels.mpr ⟨labelsOf_length R n m, ?_⟩
    intro x hx
    rw [labelsOf, List.mem_map] at hx
    obtain ⟨idx, _, rfl⟩ := hx
    exact labelIdx_lt R _
  · rw [validL, validRegionsB_iff]
    constructor
    · intro r hr
      rw [show labels_to_regions (labelsOf R n m) n m =
          [regionOfLabel (labelsOf R n m) m 0, regionOfLabel (labelsOf R n m) m 1,
           regionOfLabel (labelsOf R n m) m 2, regionOfLabel (labelsOf R n m) m 3]
          from rfl] at hr
      simp only [List.mem_cons, List.not_mem_nil, or_false] at hr
      have hgen : ∀ d, d < 4 → regionOfLabel (labelsOf R n m) m d ≠ [] := by
        intro d hd h
        have hp := hperm d hd
        rw [h] at hp
        exact hne d hd hp.symm.eq_nil
      rcases hr with rfl | rfl | rfl | rfl
      · exact hgen 0 (by omega)
      · exact hgen 1 (by omega)
      · exact hgen 2 (by omega)
      · exact hgen 3 (by omega)
    · intro r hr
      rw [show labels_to_regions (labelsOf R n m) n m =
          [regionOfLabel (labelsOf R n m) m 0, regionOfLabel (labelsOf R n m) m 1,
           regionOfLabel (labelsOf R n m) m 2, regionOfLabel (labelsOf R n m) m 3]
          from rfl] at hr
      simp only [List.mem_cons, List.not_mem_nil, or_false] at hr
      have hgen : ∀ d < 4, check_connected (regionOfLabel (labelsOf R n m) m d) n m = true := by
        intro d hd
        refine (check_connected_iff _ n m regionOfLabel_nodup
          (regionOfLabel_bounds hm (labelsOf_length R n m))).mpr ?_
        exact regionConnected_congr
          (fun x => (regionOfLabel_labelsOf hm hdc hd x).symm) (hconn d hd)
      rcases hr with rfl | rfl | rfl | rfl
      · exact hgen 0 (by omega)
      · exact hgen 1 (by omega)
      · exact hgen 2 (by omega)
      · exact hgen 3 (by omega)
  · have hsums : sumsOf matrix (labels_to_regions (labelsOf R n m) n m) = sumsOf matrix R := by
      rw [sumsOf, sumsOf]
      have he : ∀ d (hd : d < 4),
          (((labels_to_regions (labelsOf R n m) n m).getD d []).map (cost matrix)).sum =
            ((R.getD d []).map (cost matrix)).sum := by
        intro d hd
        rw [getD_labels_to_regions hd]
        exact ((hperm d hd).map (cost matrix)).sum_eq
      rw [he 0 (by omega), he 1 (by omega), he 2 (by omega), he 3 (by omega)]
    rw [calculate_objective_value, calculate_objective_value, hsums]

/-- The brute-force objective is a lower bound on the objective of every
abstractly valid partition of the grid (for `4 ≤ n*m ≤ 16`). -/
lemma brute_le_of_valid (matrix : CostMatrix) {n m : Nat}
    (hrect : Rect matrix n m) (h4 : 4 ≤ n * m) (h16 : n * m ≤ 16)
    (R : List (List Cell)) (hdc : DisjointCover R n m)
    (hne : ∀ d < 4, R.getD d [] ≠ [])
    (hconn : ∀ d < 4, RegionConnected (R.getD d []) n m) :
    calculate_objective_value matrix (brute_force_allocation matrix).1 ≤
      calculate_objective_value matrix R := by
  have hm : 0 < m := by
    by_contra h
    push_neg at h
    interval_cases m <;> omega
  obtain ⟨L, hLmem, hLv, hregs, hcount, hopt, _⟩ := brute_force_char matrix n m hrect h4 h16
  obtain ⟨hmem2, hv2, hobj2⟩ := valid_partition_labels matrix hm R hdc hne hconn
  have := hopt (labelsOf R n m) hmem2 hv2
  rw [objL, objL] at this
  rw [hregs]
  calc calculate_objective_value matrix (labels_to_regions L n m)
      ≤ calculate_objective_value matrix (labels_to_regions (labelsOf R n m) n m) := this
    _ = calculate_objective_value matrix R := hobj2

/-- C1: on every rectangular grid with `4 ≤ n*m ≤ 16`, `brute_force_allocation`
returns `4^(n*m)` as the combinations-checked count together with a partition
whose four regions are non-empty, pairwise disjoint, duplicate-free, jointly
cover the grid, and are each edge-connected; its imbalance is minimal over all
valid 4-way partitions (equivalently over all valid labellings), with ties
resolved to the first candidate in row-major base-4 enumeration order; in
particular the all-empty result does not occur. -/
theorem brute_force_allocation_optimal (matrix : CostMatrix) (n m : Nat)
    (hrect : Rect matrix n m) (h4 : 4 ≤ n * m) (h16 : n * m ≤ 16) :
    (brute_force_allocation matrix).2 = 4 ^ (n * m) ∧
    (∀ d < 4, (brute_force_allocation matrix).1.getD d [] ≠ []) ∧
    DisjointCover (brute_force_allocation matrix).1 n m ∧
    (∀ d < 4, RegionConnected ((brute_force_allocation matrix).1.getD d []) n m) ∧
    (∀ R : List (List Cell), DisjointCover R n m → (∀ d < 4, R.getD d [] ≠ []) →
      (∀ d < 4, RegionConnected (R.getD d []) n m) →
      calculate_objective_value matrix (brute_force_allocation matrix).1 ≤
        calculate_objective_value matrix R) ∧
    (∃ L pre post, allLabels (n * m) = pre ++ L :: post ∧ validL n m L ∧
      (brute_force_allocation matrix).1 = labels_to_regions L n m ∧
      (∀ L2 ∈ allLabels (n * m), validL n m L2 →
        objL matrix n m L ≤ objL matrix n m L2) ∧
      (∀ L2 ∈ pre, validL n m L2 → objL matrix n m L < objL matrix n m L2)) ∧
    (brute_force_allocation matrix).1 ≠ [[], [], [], []] := by
  have hm : 0 < m := by
    by_contra h
    push_neg at h
    interval_cases m <;> omega
  obtain ⟨L, hLmem, hLv, hregs, hcount, hopt, pre, post, hsplit, hpre⟩ :=
    brute_force_char matrix n m hrect h4 h16
  obtain ⟨hLlen, _⟩ := mem_allLabels.mp hLmem
  have hdc : DisjointCover (brute_force_allocation matrix).1 n m := by
    rw [hregs]
    exact l2r_disjoint_cover hm hLlen (mem_allLabels.mp hLmem).2
  have hvc := l2r_valid_connected hm hLlen hLv
  have hne : ∀ d < 4, (brute_force_allocation matrix).1.getD d [] ≠ [] := by
    intro d hd
    rw [hregs]
    exact (hvc d hd).1
  refine ⟨hcount, hne, hdc, ?_, ?_, ⟨L, pre, post, hsplit, hLv, hregs, hopt, hpre⟩, ?_⟩
  · intro d hd
    rw [hregs]
    exact (hvc d hd).2
  · intro R hRdc hRne hRconn
    exact brute_le_of_valid matrix hrect h4 h16 R hRdc hRne hRconn
  · intro hempty
    have := hne 0 (by omega)
    rw [hempty] at this
    exact this rfl

/-- Witness for C1 at the 2×2 grid `[[1,2],[3,4]]`. -/
theorem brute_force_allocation_optimal_witness :
    Rect [[1, 2], [3, 4]] 2 2 ∧ 4 ≤ 2 * 2 ∧ 2 * 2 ≤ 16 ∧
    ((brute_force_allocation [[1, 2], [3, 4]]).2 = 4 ^ (2 * 2) ∧
     (∀ d < 4, (brute_force_allocation [[1, 2], [3, 4]]).1.getD d [] ≠ []) ∧
     DisjointCover (brute_force_allocation [[1, 2], [3, 4]]).1 2 2 ∧
     (∀ d < 4, RegionConnected ((brute_force_allocation [[1, 2], [3, 4]]).1.getD d []) 2 2) ∧
     (∀ R : List (List Cell), DisjointCover R 2 2 → (∀ d < 4, R.getD d [] ≠ []) →
       (∀ d < 4, RegionConnected (R.getD d []) 2 2) →
       calculate_objective_value [[1, 2], [3, 4]] (brute_force_allocation [[1, 2], [3, 4]]).1 ≤
         calculate_objective_value [[1, 2], [3, 4]] R) ∧
     (∃ L pre post, allLabels (2 * 2) = pre ++ L :: post ∧ validL 2 2 L ∧
       (brute_force_allocation [[1, 2], [3, 4]]).1 = labels_to_regions L 2 2 ∧
       (∀ L2 ∈ allLabels (2 * 2), validL 2 2 L2 →
         objL [[1, 2], [3, 4]] 2 2 L ≤ objL [[1, 2], [3, 4]] 2 2 L2) ∧
       (∀ L2 ∈ pre, validL 2 2 L2 → objL [[1, 2], [3, 4]] 2 2 L < objL [[1, 2], [3, 4]] 2 2 L2)) ∧
     (brute_force_allocation [[1, 2], [3, 4]]).1 ≠ [[], [], [], []]) :=
  ⟨by decide, by decide, by decide,
    brute_force_allocation_optimal [[1, 2], [3, 4]] 2 2 (by decide) (by decide) (by decide)⟩

/-! ### Two-stage allocation: Stage 1 structure -/

lemma take_drop4 {α : Type} (l : List α) (a b c d : Nat) (h : a + b + c + d = l.length) :
    l.take a ++ ((l.drop a).take b ++ (((l.drop a).drop b).take c ++
      (((l.drop a).drop b).drop c).take d)) = l := by
  have e3 : (((l.drop a).drop b).drop c).take d = ((l.drop a).drop b).drop c := by
    apply List.take_of_length_le
    simp only [List.length_drop]
    omega
  rw [e3, List.take_append_drop, List.take_append_drop, List.take_append_drop]

/-- The four Stage-1 runs, concatenated in order, are exactly the row-major
cell list. -/
lemma create_initial_concat (matrix : CostMatrix) (n m : Nat)
    (hrect : Rect matrix n m) (hn : 0 < n) :
    (create_initial_allocation matrix).getD 0 [] ++
      ((create_initial_allocation matrix).getD 1 [] ++
        ((create_initial_allocation matrix).getD 2 [] ++
          (create_initial_allocation matrix).getD 3 [])) = allCells n m := by
  have hhead : (matrix.headD []).length = m := headD_length hrect hn
  rw [create_initial_allocation]
  simp only [hrect.1, hhead]
  have hlen : (allCells n m).length = n * m := allCells_length n m
  set total := n * m with htotal
  set q := total / 4 with hq
  set r := total % 4 with hr
  have hsizes : (q + (if 0 < r then 1 else 0)) + (q + (if 1 < r then 1 else 0)) +
      (q + (if 2 < r then 1 else 0)) + (q + (if 3 < r then 1 else 0)) = total := by
    have h4 : r < 4 := Nat.mod_lt total (by omega)
    have hqr : 4 * q + r = total := by
      rw [hq, hr]
      exact Nat.div_add_mod total 4
    interval_cases r <;> simp <;> omega
  exact take_drop4 (allCells n m) _ _ _ _ (by rw [hlen]; omega)

/-- The bookkeeping invariant of the Stage-2 loop: four regions whose ordered
concatenation is duplicate-free and covers exactly the grid cells. -/
def Cover4 (regions : List (List Cell)) (n m : Nat) : Prop :=
  regions.length = 4 ∧
  (regions.getD 0 [] ++ (regions.getD 1 [] ++ (regions.getD 2 [] ++
    regions.getD 3 []))).Nodup ∧
  (∀ c : Cell, c ∈ regions.getD 0 [] ++ (regions.getD 1 [] ++ (regions.getD 2 [] ++
    regions.getD 3 [])) ↔ c ∈ allCells n m)

lemma create_initial_cover4 (matrix : CostMatrix) (n m : Nat)
    (hrect : Rect matrix n m) (hn : 0 < n) :
    Cover4 (create_initial_allocation matrix) n m := by
  have hcat := create_initial_concat matrix n m hrect hn
  refine ⟨rfl, ?_, ?_⟩
  · rw [hcat]
    exact allCells_nodup n m
  · intro c
    rw [hcat]

/-- A `Cover4` partition is pairwise disjoint with duplicate-free regions and
exact cover: the `DisjointCover` form used by the claims. -/
lemma cover4_disjointCover {regions : List (List Cell)} {n m : Nat}
    (h : Cover4 regions n m) : DisjointCover regions n m := by
  obtain ⟨hlen, hnd, hmem⟩ := h
  obtain ⟨r0, r1, r2, r3, rfl⟩ := list_len4 hlen
  simp only [List.getD] at hnd hmem ⊢
  have hnd' := hnd
  rw [List.nodup_append] at hnd'
  obtain ⟨h0, hrest, hdisj0⟩ := hnd'
  rw [List.nodup_append] at hrest
  obtain ⟨h1, hrest2, hdisj1⟩ := hrest
  rw [List.nodup_append] at hrest2
  obtain ⟨h2, h3, hdisj2⟩ := hrest2
  refine ⟨?_, ?_, ?_⟩
  · intro d1 hd1 d2 hd2 hne c hc1 hc2
    have k01 : ¬ (c ∈ r0 ∧ c ∈ r1) := fun ⟨ha, hb⟩ => hdisj0 ha (by simp [hb])
    have k02 : ¬ (c ∈ r0 ∧ c ∈ r2) := fun ⟨ha, hb⟩ => hdisj0 ha (by simp [hb])
    have k03 : ¬ (c ∈ r0 ∧ c ∈ r3) := fun ⟨ha, hb⟩ => hdisj0 ha (by simp [hb])
    have k12 : ¬ (c ∈ r1 ∧ c ∈ r2) := fun ⟨ha, hb⟩ => hdisj1 ha (by simp [hb])
    have k13 : ¬ (c ∈ r1 ∧ c ∈ r3) := fun ⟨ha, hb⟩ => hdisj1 ha (by simp [hb])
    have k23 : ¬ (c ∈ r2 ∧ c ∈ r3) := fun ⟨ha, hb⟩ => hdisj2 ha hb
    interval_cases d1 <;> interval_cases d2 <;>
      first
        | exact absurd rfl hne
        | exact k01 ⟨hc1, hc2⟩
        | exact k01 ⟨hc2, hc1⟩
        | exact k02 ⟨hc1, hc2⟩
        | exact k02 ⟨hc2, hc1⟩
        | exact k03 ⟨hc1, hc2⟩
        | exact k03 ⟨hc2, hc1⟩
        | exact k12 ⟨hc1, hc2⟩
        | exact k12 ⟨hc2, hc1⟩
        | exact k13 ⟨hc1, hc2⟩
        | exact k13 ⟨hc2, hc1⟩
        | exact k23 ⟨hc1, hc2⟩
        | exact k23 ⟨hc2, hc1⟩
  · intro c
    rw [← hmem c]
    simp only [List.mem_append]
    constructor
    · intro h
      rcases h with h | h | h | h
      · exact ⟨0, by omega, h⟩
      · exact ⟨1, by omega, h⟩
      · exact ⟨2, by omega, h⟩
      · exact ⟨3, by omega, h⟩
    · rintro ⟨d, hd, hc⟩
      interval_cases d
      · exact Or.inl hc
      · exact Or.inr (Or.inl hc)
      · exact Or.inr (Or.inr (Or.inl hc))
      · exact Or.inr (Or.inr (Or.inr hc))
  · intro d hd
    interval_cases d
    · exact h0
    · exact h1
    · exact h2
    · exact h3

/-! ### Two-stage allocation: Stage 2 moves -/

lemma mem_foldl_dedupInsert :
    ∀ (l acc : List Cell) (x : Cell), x ∈ l.foldl dedupInsert acc ↔ x ∈ acc ∨ x ∈ l := by
  intro l
  induction l with
  | nil => simp
  | cons a t ih =>
    intro acc x
    simp only [List.foldl_cons, ih, dedupInsert]
    split_ifs with ha
    · constructor
      · rintro (h | h)
        · exact Or.inl h
        · exact Or.inr (by simp [h])
      · rintro (h | h)
        · exact Or.inl h
        · rcases List.mem_cons.mp h with rfl | h
          · exact Or.inl ha
          · exact Or.inr h
    · simp only [List.mem_append, List.mem_singleton, List.mem_cons]
      tauto

lemma mem_find_boundary_cells {region1 region2 : List Cell} {n m : Nat} {c : Cell}
    (h : c ∈ find_boundary_cells region1 region2 n m) : c ∈ region1 ∨ c ∈ region2 := by
  rw [find_boundary_cells, mem_foldl_dedupInsert] at h
  rcases h with h | h
  · exact absurd h (List.not_mem_nil c)
  · rcases List.mem_append.mp h with h | h
    · exact Or.inl (List.mem_of_mem_filter h)
    · exact Or.inr (List.mem_of_mem_filter h)

lemma mem_devPairs {p : Nat × Nat} (h : p ∈ devPairs) :
    p.1 < 4 ∧ p.2 < 4 ∧ p.1 ≠ p.2 := by
  simp only [devPairs, List.mem_cons, List.not_mem_nil, or_false] at h
  rcases h with rfl | rfl | rfl | rfl | rfl | rfl | rfl | rfl | rfl | rfl | rfl | rfl <;>
    exact ⟨by omega, by omega, by omega⟩

/-- Every candidate move names a source region (< 4) actually containing the
cell and a distinct destination region (< 4). -/
lemma candidateMoves_spec {regions : List (List Cell)} {n m : Nat}
    {mv : Cell × Nat × Nat} (h : mv ∈ candidateMoves regions n m) :
    mv.2.1 < 4 ∧ mv.2.2 < 4 ∧ mv.2.1 ≠ mv.2.2 ∧ mv.1 ∈ regions.getD mv.2.1 [] := by
  rw [candidateMoves, List.mem_flatMap] at h
  obtain ⟨p, hp, hmv⟩ := h
  obtain ⟨hp1, hp2, hpne⟩ := mem_devPairs hp
  rw [List.mem_map] at hmv
  obtain ⟨cell, hcell, rfl⟩ := hmv
  have hbd := mem_find_boundary_cells hcell
  by_cases hin : cell ∈ regions.getD p.1 []
  · have efd : (if cell ∈ regions.getD p.1 [] then p.1 else p.2) = p.1 := if_pos hin
    have etd : (if (if cell ∈ regions.getD p.1 [] then p.1 else p.2) = p.1
        then p.2 else p.1) = p.2 := by rw [efd]; simp
    refine ⟨?_, ?_, ?_, ?_⟩
    · show (if cell ∈ regions.getD p.1 [] then p.1 else p.2) < 4
      rw [efd]; exact hp1
    · show (if (if cell ∈ regions.getD p.1 [] then p.1 else p.2) = p.1
        then p.2 else p.1) < 4
      rw [etd]; exact hp2
    · show (if cell ∈ regions.getD p.1 [] then p.1 else p.2) ≠
        (if (if cell ∈ regions.getD p.1 [] then p.1 else p.2) = p.1 then p.2 else p.1)
      rw [etd, efd]; exact hpne
    · show cell ∈ regions.getD (if cell ∈ regions.getD p.1 [] then p.1 else p.2) []
      rw [efd]; exact hin
  · have hcell2 : cell ∈ regions.getD p.2 [] := by
      rcases hbd with h | h
      · exact absurd h hin
      · exact h
    have efd : (if cell ∈ regions.getD p.1 [] then p.1 else p.2) = p.2 := if_neg hin
    have etd : (if (if cell ∈ regions.getD p.1 [] then p.1 else p.2) = p.1
        then p.2 else p.1) = p.1 := by rw [efd]; exact if_neg (Ne.symm hpne)
    refine ⟨?_, ?_, ?_, ?_⟩
    · show (if cell ∈ regions.getD p.1 [] then p.1 else p.2) < 4
      rw [efd]; exact hp2
    · show (if (if cell ∈ regions.getD p.1 [] then p.1 else p.2) = p.1
        then p.2 else p.1) < 4
      rw [etd]; exact hp1
    · show (if cell ∈ regions.getD p.1 [] then p.1 else p.2) ≠
        (if (if cell ∈ regions.getD p.1 [] then p.1 else p.2) = p.1 then p.2 else p.1)
      rw [etd, efd]; exact Ne.symm hpne
    · show cell ∈ regions.getD (if cell ∈ regions.getD p.1 [] then p.1 else p.2) []
      rw [efd]; exact hcell2

/-- The best-move fold keeps a strictly positive improvement and an actual
candidate. -/
lemma findBestMove_some {matrix : CostMatrix} {regions : List (List Cell)} {n m : Nat}
    {mv : Cell × Nat × Nat} (h : findBestMove matrix regions n m = some mv) :
    mv ∈ candidateMoves regions n m ∧
    0 < calculate_current_imbalance matrix regions -
      simulate_move matrix regions mv.1 mv.2.1 mv.2.2 := by
  rw [findBestMove] at h
  set current := calculate_current_imbalance matrix regions with hcur
  have key : ∀ (l : List (Cell × Nat × Nat)) (acc : Int × Option (Cell × Nat × Nat)),
      ((acc.2 = none → acc.1 = 0) ∧
        (∀ mv2, acc.2 = some mv2 → mv2 ∈ candidateMoves regions n m ∧
          acc.1 = current - simulate_move matrix regions mv2.1 mv2.2.1 mv2.2.2 ∧
          0 < acc.1)) →
      (∀ x ∈ l, x ∈ candidateMoves regions n m) →
      ∀ mv2, (l.foldl (fun acc mv3 =>
          if current - simulate_move matrix regions mv3.1 mv3.2.1 mv3.2.2 > acc.1
          then (current - simulate_move matrix regions mv3.1 mv3.2.1 mv3.2.2, some mv3)
          else acc) acc).2 = some mv2 →
        mv2 ∈ candidateMoves regions n m ∧
        0 < current - simulate_move matrix regions mv2.1 mv2.2.1 mv2.2.2 := by
    intro l
    induction l with
    | nil =>
      intro acc hacc _ mv2 hout
      obtain ⟨h1, h2, h3⟩ := hacc.2 mv2 hout
      exact ⟨h1, by omega⟩
    | cons a t ih =>
      intro acc hacc hmem mv2 hout
      rw [List.foldl_cons] at hout
      by_cases hgt : current - simulate_move matrix regions a.1 a.2.1 a.2.2 > acc.1
      · rw [if_pos hgt] at hout
        refine ih _ ⟨?_, ?_⟩ (fun x hx => hmem x (by simp [hx])) mv2 hout
        · intro hnone
          simp at hnone
        · intro mv3 hmv3
          simp only [Option.some_inj] at hmv3
          subst hmv3
          have hge : (0 : Int) ≤ acc.1 := by
            match hacc2 : acc.2 with
            | none => rw [hacc.1 hacc2]
            | some mv4 => exact le_of_lt (hacc.2 mv4 hacc2).2.2
          exact ⟨hmem a (by simp), rfl, by omega⟩
      · rw [if_neg hgt] at hout
        exact ih _ hacc (fun x hx => hmem x (by simp [hx])) mv2 hout
  exact key (candidateMoves regions n m) (0, none)
    ⟨fun _ => rfl, by intro mv2 h2; simp at h2⟩ (fun x hx => hx) mv h

lemma sum_map_erase (f : Cell → Int) : ∀ {l : List Cell} {a : Cell}, a ∈ l →
    ((l.erase a).map f).sum = (l.map f).sum - f a := by
  intro l
  induction l with
  | nil => intro a h; simp at h
  | cons b t ih =>
    intro a h
    rw [List.erase_cons]
    by_cases hba : b = a
    · subst hba
      simp
    · have hba2 : ¬ (b == a) = true := by simp [hba]
      rw [if_neg hba2]
      have hat : a ∈ t := by
        rcases List.mem_cons.mp h with rfl | hat
        · exact absurd rfl hba
        · exact hat
      simp only [List.map_cons, List.sum_cons, ih hat]
      ring

lemma applyMove_length (regions : List (List Cell)) (cell : Cell) (f t : Nat) :
    (applyMove regions cell f t).length = regions.length := by
  simp [applyMove]

/-- Moving a cell of region `f` to region `t` leaves the sums exactly as
`simulate_move` computes them; in particular the simulated imbalance equals
the actual imbalance after the move. -/
lemma simulate_move_eq {matrix : CostMatrix} {regions : List (List Cell)}
    (hlen : regions.length = 4) {cell : Cell} {f t : Nat}
    (hf : f < 4) (ht : t < 4) (hft : f ≠ t) (hcf : cell ∈ regions.getD f []) :
    simulate_move matrix regions cell f t =
      calculate_current_imbalance matrix (applyMove regions cell f t) := by
  obtain ⟨r0, r1, r2, r3, rfl⟩ := list_len4 hlen
  have hsum : ∀ (r : List Cell), cell ∈ r →
      ((r.erase cell).map (cost matrix)).sum = (r.map (cost matrix)).sum - cost matrix cell :=
    fun r hr => sum_map_erase (cost matrix) hr
  interval_cases f <;> interval_cases t <;>
    simp_all [simulate_move, applyMove, sumsOf, calculate_current_imbalance, List.getD]

lemma perm_cons_erase_cell : ∀ {l : List Cell} {a : Cell}, a ∈ l →
    l.Perm (a :: l.erase a) := by
  intro l
  induction l with
  | nil => intro a h; exact absurd h (List.not_mem_nil a)
  | cons b t ih =>
    intro a h
    rw [List.erase_cons]
    by_cases hba : b = a
    · subst hba
      rw [if_pos (by simp)]
    · rw [if_neg (by simp [hba])]
      have hat : a ∈ t := by
        rcases List.mem_cons.mp h with rfl | hat
        · exact absurd rfl hba
        · exact hat
      exact ((ih hat).cons b).trans (List.Perm.swap a b (t.erase a))

lemma coe_erase_cell {l : List Cell} {c : Cell} (h : c ∈ l) :
    (↑(l.erase c) : Multiset Cell) + {c} = ↑l := by
  have hp := perm_cons_erase_cell h
  have := Multiset.coe_eq_coe.mpr hp
  rw [this]
  have : ((c :: l.erase c : List Cell) : Multiset Cell) = {c} + ↑(l.erase c) := by
    simp [Multiset.cons_coe]
  rw [this]
  exact add_comm _ _

/-- Applying a move permutes the ordered concatenation of the four regions. -/
lemma applyMove_concat_perm {regions : List (List Cell)} (hlen : regions.length = 4)
    {cell : Cell} {f t : Nat} (hf : f < 4) (ht : t < 4) (hft : f ≠ t)
    (hcf : cell ∈ regions.getD f []) :
    ((applyMove regions cell f t).getD 0 [] ++ ((applyMove regions cell f t).getD 1 [] ++
      ((applyMove regions cell f t).getD 2 [] ++
        (applyMove regions cell f t).getD 3 []))).Perm
      (regions.getD 0 [] ++ (regions.getD 1 [] ++ (regions.getD 2 [] ++
        regions.getD 3 []))) := by
  obtain ⟨r0, r1, r2, r3, rfl⟩ := list_len4 hlen
  interval_cases f <;> interval_cases t <;> simp_all [applyMove, List.getD] <;>
    (rw [← Multiset.coe_eq_coe]
     simp only [← Multiset.coe_add, ← Multiset.cons_coe, ← Multiset.singleton_add,
       Multiset.coe_nil, Multiset.coe_singleton]
     rw [← coe_erase_cell hcf]
     abel)

lemma applyMove_cover4 {regions : List (List Cell)} {n m : Nat}
    (h : Cover4 regions n m) {cell : Cell} {f t : Nat}
    (hf : f < 4) (ht : t < 4) (hft : f ≠ t) (hcf : cell ∈ regions.getD f []) :
    Cover4 (applyMove regions cell f t) n m := by
  obtain ⟨hlen, hnd, hmem⟩ := h
  have hperm := applyMove_concat_perm hlen hf ht hft hcf
  refine ⟨by rw [applyMove_length]; exact hlen, hperm.nodup_iff.mpr hnd, ?_⟩
  intro c
  rw [hperm.mem_iff]
  exact hmem c

lemma obLoop_cover4 (matrix : CostMatrix) (n m : Nat) :
    ∀ (fuel : Nat) (regs : List (List Cell)) (iters : Nat), Cover4 regs n m →
      Cover4 (obLoop matrix n m fuel regs iters).1 n m := by
  intro fuel
  induction fuel with
  | zero => intro regs iters h; exact h
  | succ fuel ih =>
    intro regs iters h
    rw [obLoop]
    match hbm : findBestMove matrix regs n m with
    | some (cell, f, t) =>
      obtain ⟨hcand, _⟩ := findBestMove_some hbm
      obtain ⟨hf, ht, hft, hcf⟩ := candidateMoves_spec hcand
      exact ih _ _ (applyMove_cover4 h hf ht hft hcf)
    | none => exact h

lemma obLoop_iters (matrix : CostMatrix) (n m : Nat) :
    ∀ (fuel : Nat) (regs : List (List Cell)) (iters : Nat),
      (obLoop matrix n m fuel regs iters).2 ≤ iters + fuel ∧
      ((obLoop matrix n m fuel regs iters).2 < iters + fuel →
        findBestMove matrix (obLoop matrix n m fuel regs iters).1 n m = none) := by
  intro fuel
  induction fuel with
  | zero =>
    intro regs iters
    simp only [obLoop]
    exact ⟨by omega, fun h => absurd h (by omega)⟩
  | succ fuel ih =>
    intro regs iters
    rw [obLoop]
    rcases hbm : findBestMove matrix regs n m with _ | ⟨cell, f, t⟩
    · refine ⟨?_, ?_⟩
      · show iters + 1 ≤ iters + (fuel + 1)
        omega
      · intro _
        first
          | rfl
          | exact hbm
    · have h1 : (obLoop matrix n m fuel (applyMove regs cell f t) (iters + 1)).2 ≤
          iters + 1 + fuel := (ih (applyMove regs cell f t) (iters + 1)).1
      have h2 := (ih (applyMove regs cell f t) (iters + 1)).2
      refine ⟨?_, ?_⟩
      · show (obLoop matrix n m fuel (applyMove regs cell f t) (iters + 1)).2 ≤
          iters + (fuel + 1)
        omega
      · show (obLoop matrix n m fuel (applyMove regs cell f t) (iters + 1)).2 <
            iters + (fuel + 1) →
          findBestMove matrix
            (obLoop matrix n m fuel (applyMove regs cell f t) (iters + 1)).1 n m = none
        intro h
        exact h2 (by omega)

lemma obStep_le (matrix : CostMatrix) (regs : List (List Cell)) (n m : Nat)
    (hlen : regs.length = 4) :
    calculate_current_imbalance matrix (obStep matrix regs n m) ≤
      calculate_current_imbalance matrix regs := by
  rw [obStep]
  match hbm : findBestMove matrix regs n m with
  | some (cell, f, t) =>
    obtain ⟨hcand, himp⟩ := findBestMove_some hbm
    obtain ⟨hf0, ht0, hft0, hcf0⟩ := candidateMoves_spec hcand
    have hf : f < 4 := hf0
    have ht : t < 4 := ht0
    have hft : f ≠ t := hft0
    have hcf : cell ∈ regs.getD f [] := hcf0
    have himp2 : 0 < calculate_current_imbalance matrix regs -
        simulate_move matrix regs cell f t := himp
    have heq := @simulate_move_eq matrix _ hlen _ _ _ hf ht hft hcf
    show calculate_current_imbalance matrix (applyMove regs cell f t) ≤
      calculate_current_imbalance matrix regs
    omega
  | none => exact le_refl _

lemma obStep_lt (matrix : CostMatrix) (regs : List (List Cell)) (n m : Nat)
    (hlen : regs.length = 4) (hsome : findBestMove matrix regs n m ≠ none) :
    calculate_current_imbalance matrix (obStep matrix regs n m) <
      calculate_current_imbalance matrix regs := by
  rw [obStep]
  match hbm : findBestMove matrix regs n m with
  | some (cell, f, t) =>
    obtain ⟨hcand, himp⟩ := findBestMove_some hbm
    obtain ⟨hf0, ht0, hft0, hcf0⟩ := candidateMoves_spec hcand
    have hf : f < 4 := hf0
    have ht : t < 4 := ht0
    have hft : f ≠ t := hft0
    have hcf : cell ∈ regs.getD f [] := hcf0
    have himp2 : 0 < calculate_current_imbalance matrix regs -
        simulate_move matrix regs cell f t := himp
    have heq := @simulate_move_eq matrix _ hlen _ _ _ hf ht hft hcf
    show calculate_current_imbalance matrix (applyMove regs cell f t) <
      calculate_current_imbalance matrix regs
    omega
  | none => exact absurd hbm hsome

lemma obLoop_imb (matrix : CostMatrix) (n m : Nat) :
    ∀ (fuel : Nat) (regs : List (List Cell)) (iters : Nat), regs.length = 4 →
      calculate_current_imbalance matrix (obLoop matrix n m fuel regs iters).1 ≤
        calculate_current_imbalance matrix regs := by
  intro fuel
  induction fuel with
  | zero =>
    intro regs iters _
    simp only [obLoop]
    exact le_refl _
  | succ fuel ih =>
    intro regs iters hlen
    rw [obLoop]
    match hbm : findBestMove matrix regs n m with
    | some (cell, f, t) =>
      obtain ⟨hcand, himp⟩ := findBestMove_some hbm
      obtain ⟨hf0, ht0, hft0, hcf0⟩ := candidateMoves_spec hcand
      have hf : f < 4 := hf0
      have ht : t < 4 := ht0
      have hft : f ≠ t := hft0
      have hcf : cell ∈ regs.getD f [] := hcf0
      have himp2 : 0 < calculate_current_imbalance matrix regs -
          simulate_move matrix regs cell f t := himp
      have heq := @simulate_move_eq matrix _ hlen _ _ _ hf ht hft hcf
      have hrec := ih (applyMove regs cell f t) (iters + 1)
        (by rw [applyMove_length]; exact hlen)
      show calculate_current_imbalance matrix
          (obLoop matrix n m fuel (applyMove regs cell f t) (iters + 1)).1 ≤
        calculate_current_imbalance matrix regs
      omega
    | none => exact le_refl _

lemma two_stage_eq (matrix : CostMatrix) (n m : Nat) (hrect : Rect matrix n m)
    (hn : 0 < n) (hm : 0 < m) (mi : Nat) :
    two_stage_allocation matrix mi =
      obLoop matrix n m mi (create_initial_allocation matrix) 0 := by
  have hne : matrix ≠ [] := matrix_ne_nil hrect hn
  have hhead : (matrix.headD []).length = m := headD_length hrect hn
  have hguard : ¬ (matrix = [] ∨ matrix.headD [] = []) := by
    rintro (h | h)
    · exact hne h
    · rw [h] at hhead
      simp at hhead
      omega
  rw [two_stage_allocation]
  simp only [hguard, if_false]
  rw [optimize_boundaries]
  simp only [hrect.1, hhead]

/-- C5: on every non-empty grid and for every iteration budget, the partition
returned by `two_stage_allocation` consists of pairwise-disjoint regions whose
union is exactly the grid: Stage 1 assigns every cell exactly once, and every
Stage-2 relocation (erase from the source region, append to the destination)
preserves the disjoint-cover bookkeeping. -/
theorem two_stage_allocation_disjoint_cover (matrix : CostMatrix) (n m : Nat)
    (hrect : Rect matrix n m) (hn : 0 < n) (hm : 0 < m) (mi : Nat) :
    DisjointCover (create_initial_allocation matrix) n m ∧
    (∀ (regions : List (List Cell)) (cell : Cell) (f t : Nat), Cover4 regions n m →
      f < 4 → t < 4 → f ≠ t → cell ∈ regions.getD f [] →
      Cover4 (applyMove regions cell f t) n m) ∧
    DisjointCover (two_stage_allocation matrix mi).1 n m := by
  have hc4 := create_initial_cover4 matrix n m hrect hn
  refine ⟨cover4_disjointCover hc4,
    fun regions cell f t h hf ht hft hcf => applyMove_cover4 h hf ht hft hcf, ?_⟩
  rw [two_stage_eq matrix n m hrect hn hm mi]
  exact cover4_disjointCover (obLoop_cover4 matrix n m mi _ 0 hc4)

/-- Witness for C5 at the 2×2 grid `[[1,2],[3,4]]` with budget 5. -/
theorem two_stage_allocation_disjoint_cover_witness :
    Rect [[1, 2], [3, 4]] 2 2 ∧ 0 < 2 ∧
    (DisjointCover (create_initial_allocation [[1, 2], [3, 4]]) 2 2 ∧
     (∀ (regions : List (List Cell)) (cell : Cell) (f t : Nat), Cover4 regions 2 2 →
       f < 4 → t < 4 → f ≠ t → cell ∈ regions.getD f [] →
       Cover4 (applyMove regions cell f t) 2 2) ∧
     DisjointCover (two_stage_allocation [[1, 2], [3, 4]] 5).1 2 2) :=
  ⟨by decide, by decide,
    two_stage_allocation_disjoint_cover [[1, 2], [3, 4]] 2 2 (by decide) (by decide)
      (by decide) 5⟩

/-- C7: Stage-2 iterations never increase the imbalance — one loop iteration
maps the regions to a value of no larger imbalance, strictly smaller whenever
an improving move was found — and hence the imbalance of the final result of
`two_stage_allocation` is at most the imbalance of its own Stage-1 split. -/
theorem two_stage_imbalance_monotone (matrix : CostMatrix) (n m : Nat)
    (hrect : Rect matrix n m) (hn : 0 < n) (hm : 0 < m) (mi : Nat) :
    (∀ regs : List (List Cell), regs.length = 4 →
      calculate_current_imbalance matrix (obStep matrix regs n m) ≤
        calculate_current_imbalance matrix regs ∧
      (findBestMove matrix regs n m ≠ none →
        calculate_current_imbalance matrix (obStep matrix regs n m) <
          calculate_current_imbalance matrix regs)) ∧
    calculate_current_imbalance matrix (two_stage_allocation matrix mi).1 ≤
      calculate_current_imbalance matrix (create_initial_allocation matrix) := by
  refine ⟨fun regs hlen =>
    ⟨obStep_le matrix regs n m hlen, fun h => obStep_lt matrix regs n m hlen h⟩, ?_⟩
  rw [two_stage_eq matrix n m hrect hn hm mi]
  exact obLoop_imb matrix n m mi (create_initial_allocation matrix) 0 rfl

/-- Witness for C7 at the 2×2 grid `[[1,2],[3,4]]` with budget 5. -/
theorem two_stage_imbalance_monotone_witness :
    Rect [[1, 2], [3, 4]] 2 2 ∧
    ((∀ regs : List (List Cell), regs.length = 4 →
      calculate_current_imbalance [[1, 2], [3, 4]] (obStep [[1, 2], [3, 4]] regs 2 2) ≤
        calculate_current_imbalance [[1, 2], [3, 4]] regs ∧
      (findBestMove [[1, 2], [3, 4]] regs 2 2 ≠ none →
        calculate_current_imbalance [[1, 2], [3, 4]] (obStep [[1, 2], [3, 4]] regs 2 2) <
          calculate_current_imbalance [[1, 2], [3, 4]] regs)) ∧
     calculate_current_imbalance [[1, 2], [3, 4]] (two_stage_allocation [[1, 2], [3, 4]] 5).1 ≤
       calculate_current_imbalance [[1, 2], [3, 4]]
         (create_initial_allocation [[1, 2], [3, 4]])) :=
  ⟨by decide,
    two_stage_imbalance_monotone [[1, 2], [3, 4]] 2 2 (by decide) (by decide) (by decide) 5⟩

/-- C8: on every non-empty grid, `two_stage_allocation` terminates with an
iteration count of at most `max_iterations`, and an early stop (count strictly
below the budget) happens only at convergence: no improving boundary-cell
relocation exists for the returned partition. -/
theorem two_stage_allocation_terminates (matrix : CostMatrix) (n m : Nat)
    (hrect : Rect matrix n m) (hn : 0 < n) (hm : 0 < m) (mi : Nat) :
    (two_stage_allocation matrix mi).2 ≤ mi ∧
    ((two_stage_allocation matrix mi).2 < mi →
      findBestMove matrix (two_stage_allocation matrix mi).1 n m = none) := by
  rw [two_stage_eq matrix n m hrect hn hm mi]
  have h := obLoop_iters matrix n m mi (create_initial_allocation matrix) 0
  refine ⟨by omega, fun hlt => h.2 (by omega)⟩

/-- Witness for C8 at the 2×2 grid `[[1,2],[3,4]]` with budget 3. -/
theorem two_stage_allocation_terminates_witness :
    Rect [[1, 2], [3, 4]] 2 2 ∧
    ((two_stage_allocation [[1, 2], [3, 4]] 3).2 ≤ 3 ∧
     ((two_stage_allocation [[1, 2], [3, 4]] 3).2 < 3 →
       findBestMove [[1, 2], [3, 4]] (two_stage_allocation [[1, 2], [3, 4]] 3).1 2 2 = none)) :=
  ⟨by decide,
    two_stage_allocation_terminates [[1, 2], [3, 4]] 2 2 (by decide) (by decide) (by decide) 3⟩

/-! ### Connectivity of 1-dimensional Stage-1 runs -/

/-- A list whose consecutive elements are mutually 4-adjacent is an
edge-connected region. -/
lemma chain_connected_aux {n m : Nat} :
    ∀ (rest : List Cell) (c : Cell),
      (c :: rest).Chain' (fun a b => b ∈ nbrs n m a ∧ a ∈ nbrs n m b) →
      ∀ a ∈ c :: rest, Relation.ReflTransGen (AdjStep n m (c :: rest)) c a ∧
        Relation.ReflTransGen (AdjStep n m (c :: rest)) a c := by
  intro rest
  induction rest with
  | nil =>
    intro c _ a ha
    rw [List.mem_singleton] at ha
    subst ha
    exact ⟨.refl, .refl⟩
  | cons c1 rest1 ih =>
    intro c hchain a ha
    have hadj : c1 ∈ nbrs n m c ∧ c ∈ nbrs n m c1 := (List.chain'_cons.mp hchain).1
    have hchain1 : (c1 :: rest1).Chain' (fun a b => b ∈ nbrs n m a ∧ a ∈ nbrs n m b) :=
      (List.chain'_cons.mp hchain).2
    have hmono : ∀ x y, AdjStep n m (c1 :: rest1) x y → AdjStep n m (c :: c1 :: rest1) x y :=
      fun x y hxy => ⟨hxy.1, List.mem_cons_of_mem c hxy.2⟩
    rcases List.mem_cons.mp ha with rfl | ha1
    · exact ⟨.refl, .refl⟩
    · obtain ⟨hfwd, hbwd⟩ := ih c1 hchain1 a ha1
      constructor
      · refine Relation.ReflTransGen.head ⟨hadj.1, by simp⟩ ?_
        exact hfwd.mono hmono
      · refine Relation.ReflTransGen.tail (hbwd.mono hmono) ?_
        exact ⟨hadj.2, by simp⟩

lemma chain_connected {n m : Nat} {l : List Cell}
    (h : l.Chain' (fun a b => b ∈ nbrs n m a ∧ a ∈ nbrs n m b)) :
    RegionConnected l n m := by
  match l with
  | [] => intro a ha; exact absurd ha (List.not_mem_nil a)
  | c :: rest =>
    intro a ha b hb
    exact (chain_connected_aux rest c h a ha).2.trans (chain_connected_aux rest c h b hb).1

lemma allCells_row_chain (m : Nat) :
    (allCells 1 m).Chain' (fun a b => b ∈ nbrs 1 m a ∧ a ∈ nbrs 1 m b) := by
  have he : allCells 1 m = (List.range m).map (fun j => ((0 : Nat), j)) := by
    show (List.range 1).flatMap (fun i => (List.range m).map (fun j => (i, j))) = _
    rw [show List.range 1 = [0] from rfl]
    simp
  rw [he, List.chain'_iff_get]
  intro i hi
  simp only [List.length_map, List.length_range] at hi
  have h1 : ((List.range m).map (fun j => ((0 : Nat), j))).get
      ⟨i, by simp; omega⟩ = (0, i) := by
    simp
  have h2 : ((List.range m).map (fun j => ((0 : Nat), j))).get
      ⟨i + 1, by simp; omega⟩ = (0, i + 1) := by
    simp
  rw [h1, h2]
  constructor
  · rw [mem_nbrs]
    simp
    omega
  · rw [mem_nbrs]
    simp
    omega

lemma allCells_col_chain (n : Nat) :
    (allCells n 1).Chain' (fun a b => b ∈ nbrs n 1 a ∧ a ∈ nbrs n 1 b) := by
  have he : allCells n 1 = (List.range n).map (fun i => (i, (0 : Nat))) := by
    show (List.range n).flatMap (fun i => (List.range 1).map (fun j => (i, j))) = _
    rw [show List.range 1 = [0] from rfl]
    generalize List.range n = l
    induction l with
    | nil => rfl
    | cons a t ih =>
        simp only [List.map_cons, List.map_nil] at ih
        simp [List.flatMap_cons, ih]
  rw [he, List.chain'_iff_get]
  intro i hi
  simp only [List.length_map, List.length_range] at hi
  have h1 : ((List.range n).map (fun i => (i, (0 : Nat)))).get
      ⟨i, by simp; omega⟩ = (i, 0) := by
    simp
  have h2 : ((List.range n).map (fun i => (i, (0 : Nat)))).get
      ⟨i + 1, by simp; omega⟩ = (i + 1, 0) := by
    simp
  rw [h1, h2]
  constructor
  · rw [mem_nbrs]
    simp
    omega
  · rw [mem_nbrs]
    simp
    omega

/-- Sizes of the four Stage-1 runs. -/
def stage1Size (total d : Nat) : Nat := total / 4 + (if d < total % 4 then 1 else 0)

lemma create_initial_eq (matrix : CostMatrix) (n m : Nat) (hrect : Rect matrix n m)
    (hn : 0 < n) :
    create_initial_allocation matrix =
      [(allCells n m).take (stage1Size (n * m) 0),
       ((allCells n m).drop (stage1Size (n * m) 0)).take (stage1Size (n * m) 1),
       (((allCells n m).drop (stage1Size (n * m) 0)).drop (stage1Size (n * m) 1)).take
         (stage1Size (n * m) 2),
       ((((allCells n m).drop (stage1Size (n * m) 0)).drop
         (stage1Size (n * m) 1)).drop (stage1Size (n * m) 2)).take (stage1Size (n * m) 3)] := by
  have h1 : matrix.length = n := hrect.1
  have h2 : (matrix.headD []).length = m := headD_length hrect hn
  rw [← h1, ← h2]
  rfl

/-- Counterexample to C6: on the 3×3 grid, Stage-1 region 2 is the non-empty
region `[(1,2), (2,0)]`, whose two cells are not 4-adjacent, so the region is
not edge-connected. -/
theorem create_initial_connectivity_cex :
    ((create_initial_allocation [[1, 2, 3], [4, 5, 6], [7, 8, 9]]).getD 2 [] ≠ []) ∧
    ¬ RegionConnected
      ((create_initial_allocation [[1, 2, 3], [4, 5, 6], [7, 8, 9]]).getD 2 []) 3 3 := by
  have he : (create_initial_allocation [[1, 2, 3], [4, 5, 6], [7, 8, 9]]).getD 2 [] =
      [(1, 2), (2, 0)] := by rfl
  rw [he]
  refine ⟨by simp, ?_⟩
  intro h
  have hreach := h (1, 2) (by simp) (2, 0) (by simp)
  rcases Relation.ReflTransGen.cases_head hreach with heq | ⟨c, hstep, _⟩
  · exact absurd heq (by decide)
  · obtain ⟨h1, h2⟩ := hstep
    rcases List.mem_cons.mp h2 with rfl | h2
    · exact absurd h1 (by decide)
    · rw [List.mem_singleton] at h2
      subst h2
      exact absurd h1 (by decide)

/-- C6 (amended): on every non-empty rectangular grid the four Stage-1 regions
are contiguous row-major runs — they concatenate, in order, to the full
row-major cell list — and on single-row (`n = 1`) or single-column (`m = 1`)
grids every non-empty Stage-1 region is edge-connected; for general grids a
run may be disconnected (see the 3×3 counterexample). -/
theorem create_initial_connectivity_amended (matrix : CostMatrix) (n m : Nat)
    (hrect : Rect matrix n m) (hn : 0 < n) (hm : 0 < m) :
    ((create_initial_allocation matrix).getD 0 [] ++
      ((create_initial_allocation matrix).getD 1 [] ++
        ((create_initial_allocation matrix).getD 2 [] ++
          (create_initial_allocation matrix).getD 3 []))) = allCells n m ∧
    (n = 1 ∨ m = 1 →
      ∀ d < 4, (create_initial_allocation matrix).getD d [] ≠ [] →
        RegionConnected ((create_initial_allocation matrix).getD d []) n m) := by
  refine ⟨create_initial_concat matrix n m hrect hn, ?_⟩
  intro hdim d hd _
  have hchain : (allCells n m).Chain' (fun a b => b ∈ nbrs n m a ∧ a ∈ nbrs n m b) := by
    rcases hdim with rfl | rfl
    · exact allCells_row_chain m
    · exact allCells_col_chain n
  rw [create_initial_eq matrix n m hrect hn]
  apply chain_connected
  interval_cases d
  · exact hchain.take _
  · exact (hchain.drop _).take _
  · exact ((hchain.drop _).drop _).take _
  · exact (((hchain.drop _).drop _).drop _).take _

/-- Witness for the amended C6 at the 1×4 grid `[[1,2,3,4]]`. -/
theorem create_initial_connectivity_amended_witness :
    Rect [[1, 2, 3, 4]] 1 4 ∧
    (((create_initial_allocation [[1, 2, 3, 4]]).getD 0 [] ++
       ((create_initial_allocation [[1, 2, 3, 4]]).getD 1 [] ++
         ((create_initial_allocation [[1, 2, 3, 4]]).getD 2 [] ++
           (create_initial_allocation [[1, 2, 3, 4]]).getD 3 []))) = allCells 1 4 ∧
     ((1 : Nat) = 1 ∨ (4 : Nat) = 1 →
       ∀ d < 4, (create_initial_allocation [[1, 2, 3, 4]]).getD d [] ≠ [] →
         RegionConnected ((create_initial_allocation [[1, 2, 3, 4]]).getD d []) 1 4)) :=
  ⟨by decide,
    create_initial_connectivity_amended [[1, 2, 3, 4]] 1 4 (by decide) (by decide)
      (by decide)⟩

/-! ### Greedy allocation: helper characterisations -/

lemma mem_gafc_aux (assigned : List (List Bool)) (n m : Nat) :
    ∀ (l : List Cell) (acc : List Cell),
      (∀ x ∈ acc, assignedAt assigned x = false) →
      ∀ c, (c ∈ l.foldl (fun acc a => acc ++ ((nbrs n m a).filter
          (fun d => decide (assignedAt assigned d = false ∧ d ∉ acc)))) acc ↔
        c ∈ acc ∨ (assignedAt assigned c = false ∧ ∃ a ∈ l, c ∈ nbrs n m a)) := by
  intro l
  induction l with
  | nil =>
    intro acc hacc c
    simp
  | cons a t ih =>
    intro acc hacc c
    rw [List.foldl_cons]
    have hacc2 : ∀ x ∈ acc ++ ((nbrs n m a).filter
        (fun d => decide (assignedAt assigned d = false ∧ d ∉ acc))),
        assignedAt assigned x = false := by
      intro x hx
      rcases List.mem_append.mp hx with hx | hx
      · exact hacc x hx
      · exact (mem_filter_decide.mp hx).2.1
    rw [ih _ hacc2 c]
    constructor
    · rintro (hx | ⟨hfree, b, hb, hnb⟩)
      · rcases List.mem_append.mp hx with hx | hx
        · exact Or.inl hx
        · obtain ⟨h1, h2, _⟩ := mem_filter_decide.mp hx
          exact Or.inr ⟨h2, a, by simp, h1⟩
      · exact Or.inr ⟨hfree, b, by simp [hb], hnb⟩
    · rintro (hx | ⟨hfree, b, hb, hnb⟩)
      · exact Or.inl (List.mem_append.mpr (Or.inl hx))
      · rcases List.mem_cons.mp hb with rfl | hb
        · by_cases hca : c ∈ acc
          · exact Or.inl (List.mem_append.mpr (Or.inl hca))
          · exact Or.inl (List.mem_append.mpr
              (Or.inr (mem_filter_decide.mpr ⟨hnb, hfree, hca⟩)))
        · exact Or.inr ⟨hfree, b, hb, hnb⟩

/-- Membership in the adjacent-free-cell set: exactly the unassigned in-bounds
neighbours of region cells. -/
lemma mem_gafc {region : List Cell} {assigned : List (List Bool)} {n m : Nat} {c : Cell} :
    c ∈ get_adjacent_free_cells region assigned n m ↔
      assignedAt assigned c = false ∧ ∃ a ∈ region, c ∈ nbrs n m a := by
  rw [get_adjacent_free_cells, mem_gafc_aux assigned n m region []
    (by intro x hx; exact absurd hx (List.not_mem_nil x))]
  simp

lemma foldl_opt_mem (F : Option (Cell × Int) → Cell → Option (Cell × Int))
    (hF : ∀ acc c, F acc c = acc ∨ ∃ v, F acc c = some (c, v)) :
    ∀ (l : List Cell) (acc : Option (Cell × Int)) (S : List Cell),
      (∀ c v, acc = some (c, v) → c ∈ S) → (∀ x ∈ l, x ∈ S) →
      ∀ c v, l.foldl F acc = some (c, v) → c ∈ S := by
  intro l
  induction l with
  | nil => intro acc S hacc _ c v hout; exact hacc c v hout
  | cons b t ih =>
    intro acc S hacc hmem c v hout
    rw [List.foldl_cons] at hout
    rcases hF acc b with hFb | ⟨v2, hFb⟩
    · rw [hFb] at hout
      exact ih acc S hacc (fun x hx => hmem x (by simp [hx])) c v hout
    · rw [hFb] at hout
      refine ih _ S ?_ (fun x hx => hmem x (by simp [hx])) c v hout
      intro c2 v3 h2
      rw [Option.some_inj, Prod.ext_iff] at h2
      have hb : b = c2 := h2.1
      exact hb ▸ hmem b (by simp)

lemma choose_best_cell_mem (cells : List Cell) (matrix : CostMatrix)
    (sums : List Int) (target : Nat) (h : cells ≠ []) :
    choose_best_cell cells matrix sums target ∈ cells := by
  match cells with
  | [] => exact absurd rfl h
  | a :: rest =>
    rw [choose_best_cell]
    by_cases hr : rest.isEmpty
    · rw [if_pos hr]
      simp
    · rw [if_neg hr]
      have hveq : ∀ (o : Option (Cell × Int)), (∀ c v, o = some (c, v) → c ∈ a :: rest) →
          (match o with | none => a | some (bc, _) => bc) ∈ a :: rest := by
        intro o ho
        match o with
        | none => simp
        | some (bc, bv) => exact ho bc bv rfl
      apply hveq
      intro best_cell bv heq
      refine foldl_opt_mem _ ?_ (a :: rest) none (a :: rest) ?_
        (fun x hx => hx) best_cell bv heq
      · intro acc c
        match acc with
        | none => exact Or.inr ⟨_, rfl⟩
        | some (bc, bi) =>
          by_cases hlt : calculate_imbalance
              (sums.set target (sums.getD target 0 + cost matrix c)) < bi
          · refine Or.inr ⟨calculate_imbalance
              (sums.set target (sums.getD target 0 + cost matrix c)), ?_⟩
            show (if calculate_imbalance
                (sums.set target (sums.getD target 0 + cost matrix c)) < bi
              then some (c, calculate_imbalance
                (sums.set target (sums.getD target 0 + cost matrix c)))
              else some (bc, bi)) = some (c, calculate_imbalance
                (sums.set target (sums.getD target 0 + cost matrix c)))
            rw [if_pos hlt]
          · refine Or.inl ?_
            show (if calculate_imbalance
                (sums.set target (sums.getD target 0 + cost matrix c)) < bi
              then some (c, calculate_imbalance
                (sums.set target (sums.getD target 0 + cost matrix c)))
              else some (bc, bi)) = some (bc, bi)
            rw [if_neg hlt]
      · intro c v h2
        simp at h2

lemma find_dev_unfold (regions : List (List Cell)) (assigned : List (List Bool))
    (n m : Nat) :
    find_developer_with_adjacent_cells regions assigned n m =
      (if (get_adjacent_free_cells (regions.getD 0 []) assigned n m).isEmpty then
        (if (get_adjacent_free_cells (regions.getD 1 []) assigned n m).isEmpty then
          (if (get_adjacent_free_cells (regions.getD 2 []) assigned n m).isEmpty then
            (if (get_adjacent_free_cells (regions.getD 3 []) assigned n m).isEmpty then
              none
            else some (3, get_adjacent_free_cells (regions.getD 3 []) assigned n m))
          else some (2, get_adjacent_free_cells (regions.getD 2 []) assigned n m))
        else some (1, get_adjacent_free_cells (regions.getD 1 []) assigned n m))
      else some (0, get_adjacent_free_cells (regions.getD 0 []) assigned n m)) := rfl

lemma find_dev_some {regions : List (List Cell)} {assigned : List (List Bool)}
    {n m : Nat} {dev : Nat} {cells : List Cell}
    (h : find_developer_with_adjacent_cells regions assigned n m = some (dev, cells)) :
    dev < 4 ∧ cells = get_adjacent_free_cells (regions.getD dev []) assigned n m ∧
      cells ≠ [] := by
  rw [find_dev_unfold] at h
  split_ifs at h with h0 h1 h2 h3 <;>
    first
      | (rw [Option.some_inj, Prod.mk.injEq] at h
         obtain ⟨hd, hc⟩ := h
         subst hd
         subst hc
         refine ⟨by omega, rfl, ?_⟩
         intro hnil
         simp_all)
      | exact absurd h (by simp)

lemma find_dev_none {regions : List (List Cell)} {assigned : List (List Bool)}
    {n m : Nat} (h : find_developer_with_adjacent_cells regions assigned n m = none) :
    ∀ d < 4, get_adjacent_free_cells (regions.getD d []) assigned n m = [] := by
  rw [find_dev_unfold] at h
  split_ifs at h with h0 h1 h2 h3 <;> try simp at h
  intro d hd
  interval_cases d <;> simp_all [List.isEmpty_iff]

lemma foldl_min_mem : ∀ (t : List Int) (a : Int), t.foldl min a = a ∨ t.foldl min a ∈ t := by
  intro t
  induction t with
  | nil => intro a; exact Or.inl rfl
  | cons b t ih =>
    intro a
    rw [List.foldl_cons]
    rcases ih (min a b) with heq | hmem
    · rcases min_choice a b with hab | hab
      · exact Or.inl (by rw [heq, hab])
      · exact Or.inr (by rw [heq, hab]; simp)
    · exact Or.inr (by simp [hmem])

lemma listMin_mem {l : List Int} (h : l ≠ []) : listMin l ∈ l := by
  match l with
  | [] => exact absurd rfl h
  | a :: t =>
    rw [listMin]
    rcases foldl_min_mem t a with heq | hmem
    · rw [heq]; simp
    · simp [hmem]

lemma get_developer_with_min_sum_lt (sums : List Int) (hlen : sums.length = 4) :
    get_developer_with_min_sum sums < 4 := by
  rw [get_developer_with_min_sum, ← hlen]
  apply List.findIdx_lt_length_of_exists
  refine ⟨listMin sums, listMin_mem (by intro hnil; rw [hnil] at hlen; simp at hlen), ?_⟩
  simp

/-! ### Greedy allocation: the assignment matrix -/

/-- Well-formedness of the boolean assignment matrix: `n` rows of length `m`. -/
def AssignedDims (assigned : List (List Bool)) (n m : Nat) : Prop :=
  assigned.length = n ∧ ∀ row ∈ assigned, row.length = m

lemma list_set_oob {α : Type} (l : List α) (i : Nat) (x : α) (h : l.length ≤ i) :
    l.set i x = l := by
  induction l generalizing i with
  | nil => rfl
  | cons a t ih =>
    cases i with
    | zero => simp at h
    | succ j =>
      simp only [List.set_cons_succ]
      rw [ih j (by simpa using h)]

lemma getD_replicate {α : Type} (k i : Nat) (x d : α) :
    (List.replicate k x).getD i d = if i < k then x else d := by
  induction k generalizing i with
  | zero => simp
  | succ k ih =>
    cases i with
    | zero => simp [List.replicate_succ]
    | succ j =>
      rw [List.replicate_succ]
      simp only [List.getD_cons_succ, ih]
      by_cases hj : j < k
      · rw [if_pos hj, if_pos (by omega)]
      · rw [if_neg hj, if_neg (by omega)]

lemma assignedAt_falseGrid (n m : Nat) (c : Cell) :
    assignedAt (List.replicate n (List.replicate m false)) c = false := by
  rw [assignedAt, getD_replicate]
  by_cases h : c.1 < n
  · rw [if_pos h, getD_replicate]
    split_ifs <;> rfl
  · rw [if_neg h]
    rfl

lemma assignedDims_falseGrid (n m : Nat) :
    AssignedDims (List.replicate n (List.replicate m false)) n m := by
  refine ⟨by simp, ?_⟩
  intro row hrow
  rw [List.eq_of_mem_replicate hrow]
  simp

lemma assignedDims_set {assigned : List (List Bool)} {n m : Nat}
    (h : AssignedDims assigned n m) (c : Cell) :
    AssignedDims (setAssigned assigned c) n m := by
  obtain ⟨hlen, hrows⟩ := h
  by_cases hc : c.1 < assigned.length
  · refine ⟨by rw [setAssigned, List.length_set]; exact hlen, ?_⟩
    intro row hrow
    rcases List.mem_or_eq_of_mem_set hrow with hmem | rfl
    · exact hrows row hmem
    · rw [List.length_set]
      exact hrows _ (getD_mem [] hc)
  · rw [setAssigned, list_set_oob _ _ _ (by omega)]
    exact ⟨hlen, hrows⟩

lemma assignedAt_setAssigned_self {assigned : List (List Bool)} {n m : Nat}
    (h : AssignedDims assigned n m) {c : Cell} (h1 : c.1 < n) (h2 : c.2 < m) :
    assignedAt (setAssigned assigned c) c = true := by
  obtain ⟨hlen, hrows⟩ := h
  rw [assignedAt, setAssigned, getD_set_self _ _ _ _ (by omega)]
  have hrow : (assigned.getD c.1 []).length = m := hrows _ (getD_mem [] (by omega))
  rw [getD_set_self _ _ _ _ (by omega)]

lemma assignedAt_setAssigned_ne (assigned : List (List Bool)) {c c2 : Cell}
    (hne : c2 ≠ c) :
    assignedAt (setAssigned assigned c) c2 = assignedAt assigned c2 := by
  rw [assignedAt, assignedAt, setAssigned]
  by_cases hfst : c2.1 = c.1
  · have hsnd : c2.2 ≠ c.2 := by
      intro h2
      exact hne (Prod.ext hfst h2)
    by_cases hc : c.1 < assigned.length
    · rw [hfst, getD_set_self _ _ _ _ hc, getD_set_ne _ _ _ _ _ (Ne.symm hsnd)]
    · rw [list_set_oob _ _ _ (by omega)]
  · rw [getD_set_ne _ _ _ _ _ (fun h => hfst h.symm)]

/-! ### Greedy allocation: invariant and growth -/

lemma singleton_connected (c : Cell) (n m : Nat) : RegionConnected [c] n m := by
  intro a ha b hb
  rw [List.mem_singleton] at ha hb
  subst ha
  subst hb
  exact Relation.ReflTransGen.refl

/-- Growing a connected region by a free neighbour of one of its cells keeps
it connected. -/
lemma regionConnected_snoc {n m : Nat} {r : List Cell} {a c : Cell}
    (hconn : RegionConnected r n m) (hbounds : ∀ x ∈ r, x.1 < n ∧ x.2 < m)
    (ha : a ∈ r) (hc : c ∈ nbrs n m a) : RegionConnected (r ++ [c]) n m := by
  have hmono : ∀ u v, AdjStep n m r u v → AdjStep n m (r ++ [c]) u v :=
    fun u v h => ⟨h.1, by simp [h.2]⟩
  have hstep : AdjStep n m (r ++ [c]) a c := ⟨hc, by simp⟩
  have hback : AdjStep n m (r ++ [c]) c a :=
    ⟨nbrs_symm (hbounds a ha).1 (hbounds a ha).2 hc, by simp [ha]⟩
  intro x hx y hy
  rcases List.mem_append.mp hx with hxr | hxc
  · rcases List.mem_append.mp hy with hyr | hyc
    · exact (hconn x hxr y hyr).mono hmono
    · rw [List.mem_singleton] at hyc
      subst hyc
      exact ((hconn x hxr a ha).mono hmono).tail hstep
  · rw [List.mem_singleton] at hxc
    subst hxc
    rcases List.mem_append.mp hy with hyr | hyc
    · exact Relation.ReflTransGen.head hback ((hconn a ha y hyr).mono hmono)
    · rw [List.mem_singleton] at hyc
      subst hyc
      exact Relation.ReflTransGen.refl

lemma fullReach_bounds {n m : Nat} {a c : Cell} (ha1 : a.1 < n) (ha2 : a.2 < m)
    (h : Relation.ReflTransGen (fun u v : Cell => v ∈ nbrs n m u) a c) :
    c.1 < n ∧ c.2 < m := by
  induction h with
  | refl => exact ⟨ha1, ha2⟩
  | tail _ hstep _ => exact nbrs_bounds hstep

lemma gridReach_origin {n m : Nat} (hn : 0 < n) (hm : 0 < m) :
    ∀ (i j : Nat), i < n → j < m →
      Relation.ReflTransGen (fun u v : Cell => v ∈ nbrs n m u) (0, 0) (i, j) := by
  have hcol : ∀ i, i < n →
      Relation.ReflTransGen (fun u v : Cell => v ∈ nbrs n m u) (0, 0) (i, 0) := by
    intro i
    induction i with
    | zero => intro _; exact Relation.ReflTransGen.refl
    | succ i ih =>
      intro hi
      refine (ih (by omega)).tail ?_
      rw [mem_nbrs]
      simp
      omega
  intro i j hi hj
  induction j with
  | zero => exact hcol i hi
  | succ j ihj =>
    refine (ihj (by omega)).tail ?_
    rw [mem_nbrs]
    simp
    omega

lemma fullReach_symm {n m : Nat} {a c : Cell} (ha1 : a.1 < n) (ha2 : a.2 < m)
    (h : Relation.ReflTransGen (fun u v : Cell => v ∈ nbrs n m u) a c) :
    Relation.ReflTransGen (fun u v : Cell => v ∈ nbrs n m u) c a := by
  induction h with
  | refl => exact Relation.ReflTransGen.refl
  | tail hax hstep ih =>
    rename_i x y
    have hx := fullReach_bounds ha1 ha2 hax
    exact Relation.ReflTransGen.head (nbrs_symm hx.1 hx.2 hstep) ih

lemma gridReach {n m : Nat} (hn : 0 < n) (hm : 0 < m) {a c : Cell}
    (ha1 : a.1 < n) (ha2 : a.2 < m) (hc1 : c.1 < n) (hc2 : c.2 < m) :
    Relation.ReflTransGen (fun u v : Cell => v ∈ nbrs n m u) a c := by
  have h1 := gridReach_origin hn hm a.1 a.2 ha1 ha2
  have h2 := gridReach_origin hn hm c.1 c.2 hc1 hc2
  exact (fullReach_symm (by omega) (by omega) (show
    Relation.ReflTransGen (fun u v : Cell => v ∈ nbrs n m u) (0, 0) (a.1, a.2)
    from h1)).trans h2

lemma frontier_cross {n m : Nat} (assigned : List (List Bool)) :
    ∀ {a f : Cell}, Relation.ReflTransGen (fun u v : Cell => v ∈ nbrs n m u) a f →
      a.1 < n → a.2 < m →
      assignedAt assigned a = true → assignedAt assigned f = false →
      ∃ x y, assignedAt assigned x = true ∧ assignedAt assigned y = false ∧
        y ∈ nbrs n m x ∧ x.1 < n ∧ x.2 < m := by
  intro a f h
  induction h using Relation.ReflTransGen.head_induction_on with
  | refl =>
    intro _ _ htrue hfalse
    rw [htrue] at hfalse
    exact absurd hfalse (by simp)
  | head hstep _ ih =>
    rename_i x y _
    intro hx1 hx2 htrue hfalse
    by_cases hy : assignedAt assigned y = true
    · have hyb := nbrs_bounds hstep
      exact ih hyb.1 hyb.2 hy hfalse
    · exact ⟨x, y, htrue, by simpa using hy, hstep, hx1, hx2⟩

/-- Invariant of the greedy growth loop (independent of the iteration
counter and the cost sums): four non-empty, duplicate-free, pairwise-disjoint,
in-bounds, edge-connected regions; the assignment matrix marks exactly the
cells of the regions; the `total_assigned` counter equals the total number of
region cells. -/
structure GInv (n m : Nat) (s : GState) : Prop where
  rlen : s.regions.length = 4
  slen : s.sums.length = 4
  adims : AssignedDims s.assigned n m
  nonempty : ∀ d < 4, s.regions.getD d [] ≠ []
  bounds : ∀ d < 4, ∀ c ∈ s.regions.getD d [], c.1 < n ∧ c.2 < m
  nodup : ∀ d < 4, (s.regions.getD d []).Nodup
  disj : ∀ d1 < 4, ∀ d2 < 4, d1 ≠ d2 →
    ∀ c : Cell, c ∈ s.regions.getD d1 [] → c ∉ s.regions.getD d2 []
  conn : ∀ d < 4, RegionConnected (s.regions.getD d []) n m
  assignedIff : ∀ c : Cell, c.1 < n → c.2 < m →
    (assignedAt s.assigned c = true ↔ ∃ d < 4, c ∈ s.regions.getD d [])
  count : s.total_assigned = (s.regions.getD 0 []).length +
    (s.regions.getD 1 []).length + (s.regions.getD 2 []).length +
    (s.regions.getD 3 []).length

lemma greedyInit_inv (matrix : CostMatrix) {n m : Nat} (hn : 2 ≤ n) (hm : 2 ≤ m) :
    GInv n m (greedyInit matrix n m) := by
  have hd : ∀ d, d < 4 → (greedyInit matrix n m).regions.getD d [] =
      [[(0, 0), ((0 : Nat), m - 1), (n - 1, (0 : Nat)), (n - 1, m - 1)].getD d (0, 0)] := by
    intro d hd
    interval_cases d <;> rfl
  have hcorner : ∀ d, d < 4 →
      ([(0, 0), ((0 : Nat), m - 1), (n - 1, (0 : Nat)), (n - 1, m - 1)].getD d (0, 0)).1 < n ∧
      ([(0, 0), ((0 : Nat), m - 1), (n - 1, (0 : Nat)), (n - 1, m - 1)].getD d (0, 0)).2 < m := by
    intro d hd
    interval_cases d <;> simp <;> omega
  have hcdist : ∀ d1, d1 < 4 → ∀ d2, d2 < 4 → d1 ≠ d2 →
      ([(0, 0), ((0 : Nat), m - 1), (n - 1, (0 : Nat)), (n - 1, m - 1)].getD d1 (0, 0)) ≠
      ([(0, 0), ((0 : Nat), m - 1), (n - 1, (0 : Nat)), (n - 1, m - 1)].getD d2 (0, 0)) := by
    intro d1 h1 d2 h2 hne
    interval_cases d1 <;> interval_cases d2 <;>
      simp_all [Prod.ext_iff] <;> omega
  have hassigned : ∀ c : Cell, c.1 < n → c.2 < m →
      (assignedAt (greedyInit matrix n m).assigned c = true ↔
        ∃ d < 4, c ∈ (greedyInit matrix n m).regions.getD d []) := by
    intro c h1 h2
    show assignedAt (setAssigned (setAssigned (setAssigned (setAssigned
      (List.replicate n (List.replicate m false)) (0, 0)) (0, m - 1)) (n - 1, 0))
      (n - 1, m - 1)) c = true ↔ _
    have hdims0 := assignedDims_falseGrid n m
    have hdims1 := assignedDims_set hdims0 ((0 : Nat), (0 : Nat))
    have hdims2 := assignedDims_set hdims1 ((0 : Nat), m - 1)
    have hdims3 := assignedDims_set hdims2 (n - 1, (0 : Nat))
    constructor
    · intro htrue
      by_cases hc3 : c = (n - 1, m - 1)
      · exact ⟨3, by omega, by rw [hd 3 (by omega)]; simp [hc3]⟩
      · rw [assignedAt_setAssigned_ne _ hc3] at htrue
        by_cases hc2 : c = (n - 1, (0 : Nat))
        · exact ⟨2, by omega, by rw [hd 2 (by omega)]; simp [hc2]⟩
        · rw [assignedAt_setAssigned_ne _ hc2] at htrue
          by_cases hc1 : c = ((0 : Nat), m - 1)
          · exact ⟨1, by omega, by rw [hd 1 (by omega)]; simp [hc1]⟩
          · rw [assignedAt_setAssigned_ne _ hc1] at htrue
            by_cases hc0 : c = ((0 : Nat), (0 : Nat))
            · exact ⟨0, by omega, by rw [hd 0 (by omega)]; simp [hc0]⟩
            · rw [assignedAt_setAssigned_ne _ hc0, assignedAt_falseGrid] at htrue
              exact absurd htrue (by simp)
    · rintro ⟨d, hdlt, hmem⟩
      rw [hd d hdlt] at hmem
      rw [List.mem_singleton] at hmem
      subst hmem
      interval_cases d
      · show assignedAt (setAssigned (setAssigned (setAssigned (setAssigned
          (List.replicate n (List.replicate m false)) (0, 0)) (0, m - 1)) (n - 1, 0))
          (n - 1, m - 1)) ((0 : Nat), (0 : Nat)) = true
        rw [assignedAt_setAssigned_ne _ (by simp [Prod.ext_iff]; omega),
          assignedAt_setAssigned_ne _ (by simp [Prod.ext_iff]; omega),
          assignedAt_setAssigned_ne _ (by simp [Prod.ext_iff]; omega)]
        exact assignedAt_setAssigned_self hdims0 (by omega) (by omega)
      · show assignedAt (setAssigned (setAssigned (setAssigned (setAssigned
          (List.replicate n (List.replicate m false)) (0, 0)) (0, m - 1)) (n - 1, 0))
          (n - 1, m - 1)) ((0 : Nat), m - 1) = true
        rw [assignedAt_setAssigned_ne _ (by simp [Prod.ext_iff]; omega),
          assignedAt_setAssigned_ne _ (by simp [Prod.ext_iff]; omega)]
        exact assignedAt_setAssigned_self hdims1 (by omega) (by omega)
      · show assignedAt (setAssigned (setAssigned (setAssigned (setAssigned
          (List.replicate n (List.replicate m false)) (0, 0)) (0, m - 1)) (n - 1, 0))
          (n - 1, m - 1)) (n - 1, (0 : Nat)) = true
        rw [assignedAt_setAssigned_ne _ (by simp [Prod.ext_iff]; omega)]
        exact assignedAt_setAssigned_self hdims2 (by omega) (by omega)
      · exact assignedAt_setAssigned_self hdims3 (by omega) (by omega)
  refine ⟨rfl, rfl, ?_, ?_, ?_, ?_, ?_, ?_, hassigned, rfl⟩
  · exact assignedDims_set (assignedDims_set (assignedDims_set (assignedDims_set
      (assignedDims_falseGrid n m) _) _) _) _
  · intro d hdlt
    rw [hd d hdlt]
    simp
  · intro d hdlt c hc
    rw [hd d hdlt, List.mem_singleton] at hc
    subst hc
    exact hcorner d hdlt
  · intro d hdlt
    rw [hd d hdlt]
    simp
  · intro d1 h1 d2 h2 hne c hc1 hc2
    rw [hd d1 h1, List.mem_singleton] at hc1
    rw [hd d2 h2, List.mem_singleton] at hc2
    subst hc1
    exact hcdist d1 h1 d2 h2 hne (hc2.symm ▸ rfl)
  · intro d hdlt
    rw [hd d hdlt]
    exact singleton_connected _ n m

/-- One successful greedy growth step assigns exactly one previously free cell
adjacent to the target region and preserves the invariant. -/
lemma greedyStep_inv {matrix : CostMatrix} {n m : Nat} {s s2 : GState}
    (hinv : GInv n m s) (hstep : greedyStep matrix n m s = some s2) :
    GInv n m s2 ∧ s2.total_assigned = s.total_assigned + 1 ∧ s2.iter = s.iter := by
  rw [greedyStep] at hstep
  set min_dev := get_developer_with_min_sum s.sums with hmin
  set adj0 := get_adjacent_free_cells (s.regions.getD min_dev []) s.assigned n m with hadj0
  have hminlt : min_dev < 4 := get_developer_with_min_sum_lt s.sums hinv.slen
  have htarget : ∃ target cells, (target < 4 ∧
      cells = get_adjacent_free_cells (s.regions.getD target []) s.assigned n m ∧
      cells ≠ []) ∧
      s2 = { regions := s.regions.set target
               ((s.regions.getD target []) ++ [choose_best_cell cells matrix s.sums target]),
             sums := s.sums.set target (s.sums.getD target 0 +
               cost matrix (choose_best_cell cells matrix s.sums target)),
             assigned := setAssigned s.assigned (choose_best_cell cells matrix s.sums target),
             total_assigned := s.total_assigned + 1,
             iter := s.iter } := by
    by_cases hae : adj0.isEmpty
    · rw [if_pos hae] at hstep
      match hfd : find_developer_with_adjacent_cells s.regions s.assigned n m with
      | none =>
        rw [hfd] at hstep
        exact absurd hstep (by simp)
      | some (dev, cells) =>
        rw [hfd] at hstep
        obtain ⟨hdev, hcells, hcne⟩ := find_dev_some hfd
        simp only [Option.some_inj] at hstep
        exact ⟨dev, cells, ⟨hdev, hcells, hcne⟩, hstep.symm⟩
    · rw [if_neg hae] at hstep
      simp only [Option.some_inj] at hstep
      refine ⟨min_dev, adj0, ⟨hminlt, rfl, by simpa [List.isEmpty_iff] using hae⟩,
        hstep.symm⟩
  obtain ⟨target, cells, ⟨htlt, hcells, hcne⟩, hs2⟩ := htarget
  set best := choose_best_cell cells matrix s.sums target with hbest
  have hbmem : best ∈ cells := choose_best_cell_mem cells matrix s.sums target hcne
  rw [hcells] at hbmem
  rw [mem_gafc] at hbmem
  obtain ⟨hfree, a, hamem, hanbr⟩ := hbmem
  have hbbounds : best.1 < n ∧ best.2 < m := nbrs_bounds hanbr
  have hbnotin : ∀ d < 4, best ∉ s.regions.getD d [] := by
    intro d hdlt hmem
    have := (hinv.assignedIff best hbbounds.1 hbbounds.2).mpr ⟨d, hdlt, hmem⟩
    rw [hfree] at this
    exact absurd this (by simp)
  have hreg : ∀ d, d < 4 → s2.regions.getD d [] =
      (if d = target then s.regions.getD target [] ++ [best] else s.regions.getD d []) := by
    intro d hdlt
    rw [hs2]
    by_cases hdt : d = target
    · subst hdt
      simp only [if_pos rfl]
      exact getD_set_self _ _ _ _ (by rw [hinv.rlen]; omega)
    · rw [if_neg hdt]
      exact getD_set_ne _ _ _ _ _ (fun h => hdt h.symm)
  refine ⟨⟨?_, ?_, ?_, ?_, ?_, ?_, ?_, ?_, ?_, ?_⟩, by rw [hs2], by rw [hs2]⟩
  · rw [hs2]
    simp only [List.length_set]
    exact hinv.rlen
  · rw [hs2]
    simp only [List.length_set]
    exact hinv.slen
  · rw [hs2]
    exact assignedDims_set hinv.adims best
  · intro d hdlt
    rw [hreg d hdlt]
    split_ifs
    · simp
    · exact hinv.nonempty d hdlt
  · intro d hdlt c hc
    rw [hreg d hdlt] at hc
    split_ifs at hc
    · rcases List.mem_append.mp hc with hc | hc
      · exact hinv.bounds target htlt c hc
      · rw [List.mem_singleton] at hc
        subst hc
        exact hbbounds
    · exact hinv.bounds d hdlt c hc
  · intro d hdlt
    rw [hreg d hdlt]
    split_ifs with hdt
    · rw [List.nodup_append]
      exact ⟨hinv.nodup target htlt, by simp,
        by intro x hx hxb; rw [List.mem_singleton] at hxb; subst hxb;
           exact hbnotin target htlt hx⟩
    · exact hinv.nodup d hdlt
  · intro d1 h1 d2 h2 hne c hc1 hc2
    rw [hreg d1 h1] at hc1
    rw [hreg d2 h2] at hc2
    by_cases ha1 : d1 = target <;> by_cases ha2 : d2 = target
    · exact hne (by rw [ha1, ha2])
    · rw [if_pos ha1] at hc1
      rw [if_neg ha2] at hc2
      rcases List.mem_append.mp hc1 with hc1 | hc1
      · exact hinv.disj d1 h1 d2 h2 hne c (by rw [ha1]; exact hc1) hc2
      · rw [List.mem_singleton] at hc1
        subst hc1
        exact hbnotin d2 h2 hc2
    · rw [if_neg ha1] at hc1
      rw [if_pos ha2] at hc2
      rcases List.mem_append.mp hc2 with hc2 | hc2
      · exact hinv.disj d1 h1 d2 h2 hne c hc1 (by rw [ha2]; exact hc2)
      · rw [List.mem_singleton] at hc2
        subst hc2
        exact hbnotin d1 h1 hc1
    · rw [if_neg ha1] at hc1
      rw [if_neg ha2] at hc2
      exact hinv.disj d1 h1 d2 h2 hne c hc1 hc2
  · intro d hdlt
    rw [hreg d hdlt]
    split_ifs with hdt
    · exact regionConnected_snoc (hinv.conn target htlt) (hinv.bounds target htlt)
        hamem hanbr
    · exact hinv.conn d hdlt
  · intro c h1 h2
    have hnew : s2.assigned = setAssigned s.assigned best := by rw [hs2]
    rw [hnew]
    by_cases hcb : c = best
    · subst hcb
      rw [assignedAt_setAssigned_self hinv.adims h1 h2]
      refine ⟨fun _ => ⟨target, htlt, ?_⟩, fun _ => rfl⟩
      rw [hreg target htlt, if_pos rfl]
      simp
    · rw [assignedAt_setAssigned_ne _ hcb, hinv.assignedIff c h1 h2]
      constructor
      · rintro ⟨d, hdlt, hmem⟩
        refine ⟨d, hdlt, ?_⟩
        rw [hreg d hdlt]
        split_ifs with hdt
        · subst hdt
          exact List.mem_append.mpr (Or.inl hmem)
        · exact hmem
      · rintro ⟨d, hdlt, hmem⟩
        rw [hreg d hdlt] at hmem
        split_ifs at hmem with hdt
        · rcases List.mem_append.mp hmem with hmem | hmem
          · exact ⟨d, hdlt, by rw [hdt]; exact hmem⟩
          · rw [List.mem_singleton] at hmem
            exact absurd hmem hcb
        · exact ⟨d, hdlt, hmem⟩
  · have hlen : ∀ d, d < 4 → (s2.regions.getD d []).length =
        (if d = target then (s.regions.getD d []).length + 1
         else (s.regions.getD d []).length) := by
      intro d hdlt
      rw [hreg d hdlt]
      split_ifs with hdt
      · subst hdt
        simp
      · rfl
    have h0 := hlen 0 (by omega)
    have h1 := hlen 1 (by omega)
    have h2 := hlen 2 (by omega)
    have h3 := hlen 3 (by omega)
    have hc := hinv.count
    have ht : s2.total_assigned = s.total_assigned + 1 := by rw [hs2]
    rw [h0, h1, h2, h3, ht]
    split_ifs <;> omega

/-- While unassigned in-bounds cells remain, some region has an adjacent free
cell (the grid is connected, so the assigned/free frontier is crossed by an
edge). -/
lemma exists_free_adjacent {n m : Nat} {s : GState} (hinv : GInv n m s)
    (hn : 0 < n) (hm : 0 < m) (hlt : s.total_assigned < n * m) :
    ∃ d < 4, get_adjacent_free_cells (s.regions.getD d []) s.assigned n m ≠ [] := by
  have hfree : ∃ f : Cell, f.1 < n ∧ f.2 < m ∧ assignedAt s.assigned f = false := by
    by_contra hall
    push_neg at hall
    have hsub : allCells n m ⊆
        s.regions.getD 0 [] ++ s.regions.getD 1 [] ++ s.regions.getD 2 [] ++
          s.regions.getD 3 [] := by
      intro c hc
      obtain ⟨h1, h2⟩ := mem_allCells.mp hc
      have hassigned : assignedAt s.assigned c = true := by
        cases hb : assignedAt s.assigned c
        · exact absurd hb (hall c h1 h2)
        · rfl
      obtain ⟨d, hdlt, hmem⟩ := (hinv.assignedIff c h1 h2).mp hassigned
      interval_cases d
      · exact List.mem_append.mpr (Or.inl (List.mem_append.mpr (Or.inl
          (List.mem_append.mpr (Or.inl hmem)))))
      · exact List.mem_append.mpr (Or.inl (List.mem_append.mpr (Or.inl
          (List.mem_append.mpr (Or.inr hmem)))))
      · exact List.mem_append.mpr (Or.inl (List.mem_append.mpr (Or.inr hmem)))
      · exact List.mem_append.mpr (Or.inr hmem)
    have hlen := (List.subperm_of_subset (allCells_nodup n m) hsub).length_le
    rw [allCells_length] at hlen
    simp only [List.length_append] at hlen
    have hcount := hinv.count
    omega
  obtain ⟨f, hf1, hf2, hffree⟩ := hfree
  have hne0 := hinv.nonempty 0 (by omega)
  obtain ⟨a, ha⟩ := List.exists_mem_of_ne_nil _ hne0
  have hab := hinv.bounds 0 (by omega) a ha
  have haassigned : assignedAt s.assigned a = true :=
    (hinv.assignedIff a hab.1 hab.2).mpr ⟨0, by omega, ha⟩
  have hpath := gridReach hn hm hab.1 hab.2 hf1 hf2
  obtain ⟨x, y, hxT, hyF, hynbr, hx1, hx2⟩ :=
    frontier_cross s.assigned hpath hab.1 hab.2 haassigned hffree
  obtain ⟨d, hdlt, hxd⟩ := (hinv.assignedIff x hx1 hx2).mp hxT
  refine ⟨d, hdlt, ?_⟩
  intro hnil
  have hy : y ∈ get_adjacent_free_cells (s.regions.getD d []) s.assigned n m :=
    mem_gafc.mpr ⟨hyF, x, hxd, hynbr⟩
  rw [hnil] at hy
  exact absurd hy (List.not_mem_nil y)

/-- While unassigned cells remain the greedy step never returns `none`, i.e.
the early `break` never fires. -/
lemma greedyStep_progress (matrix : CostMatrix) {n m : Nat} {s : GState}
    (hinv : GInv n m s) (hn : 0 < n) (hm : 0 < m)
    (hlt : s.total_assigned < n * m) :
    ∃ s2, greedyStep matrix n m s = some s2 := by
  rw [greedyStep]
  set min_dev := get_developer_with_min_sum s.sums with hmin
  set adj0 := get_adjacent_free_cells (s.regions.getD min_dev []) s.assigned n m
    with hadj0
  by_cases hae : adj0.isEmpty
  · rw [if_pos hae]
    rcases hfd : find_developer_with_adjacent_cells s.regions s.assigned n m with
      _ | ⟨dev, cells⟩
    · obtain ⟨d, hdlt, hdne⟩ := exists_free_adjacent hinv hn hm hlt
      exact absurd (find_dev_none hfd d hdlt) hdne
    · exact ⟨_, rfl⟩
  · rw [if_neg hae]
    exact ⟨_, rfl⟩

/-- With enough fuel, starting from an invariant state with at most `n·m`
assigned cells, the greedy loop exits via the `while` condition with every
cell assigned, the invariant intact, and one iteration per cell it assigned. -/
lemma greedyLoop_run (matrix : CostMatrix) {n m : Nat} (hn : 0 < n) (hm : 0 < m) :
    ∀ (fuel : Nat) (s : GState), GInv n m s → s.total_assigned ≤ n * m →
      n * m < s.total_assigned + fuel →
      (greedyLoop matrix n m fuel s).2 = GExit.completed ∧
      GInv n m (greedyLoop matrix n m fuel s).1 ∧
      (greedyLoop matrix n m fuel s).1.total_assigned = n * m ∧
      (greedyLoop matrix n m fuel s).1.iter = s.iter + (n * m - s.total_assigned) := by
  intro fuel
  induction fuel with
  | zero => intro s _ hle hfuel; omega
  | succ fuel ih =>
    intro s hinv hle hfuel
    rw [greedyLoop]
    by_cases hlt : s.total_assigned < n * m
    · rw [if_pos hlt]
      have hinv1 : GInv n m { s with iter := s.iter + 1 } :=
        ⟨hinv.rlen, hinv.slen, hinv.adims, hinv.nonempty, hinv.bounds, hinv.nodup,
         hinv.disj, hinv.conn, hinv.assignedIff, hinv.count⟩
      have ht1 : ({ s with iter := s.iter + 1 } : GState).total_assigned =
          s.total_assigned := rfl
      have hi1 : ({ s with iter := s.iter + 1 } : GState).iter = s.iter + 1 := rfl
      obtain ⟨s2, hs2⟩ := greedyStep_progress matrix hinv1 hn hm
        (by rw [ht1]; exact hlt)
      simp only [hs2]
      obtain ⟨hinv2, htot2, hiter2⟩ := greedyStep_inv hinv1 hs2
      have hres := ih s2 hinv2 (by rw [htot2, ht1]; omega) (by rw [htot2, ht1]; omega)
      refine ⟨hres.1, hres.2.1, hres.2.2.1, ?_⟩
      rw [hres.2.2.2, hiter2, hi1, htot2, ht1]
      omega
    · rw [if_neg hlt]
      refine ⟨rfl, hinv, ?_, ?_⟩
      · show s.total_assigned = n * m
        omega
      · show s.iter = s.iter + (n * m - s.total_assigned)
        omega

/-- For rectangular grids with `n, m ≥ 2`, the greedy run completes (no break,
no fuel exhaustion) with all `n·m` cells assigned in `n·m − 4` iterations, and
the loop invariant holds of the final state. -/
lemma greedyRun_spec {matrix : CostMatrix} {n m : Nat} (hrect : Rect matrix n m)
    (hn : 2 ≤ n) (hm : 2 ≤ m) :
    (greedyRun matrix).2 = GExit.completed ∧ GInv n m (greedyRun matrix).1 ∧
    (greedyRun matrix).1.total_assigned = n * m ∧
    (greedyRun matrix).1.iter = n * m - 4 := by
  have hlen : matrix.length = n := hrect.1
  have hhead : (matrix.headD []).length = m := headD_length hrect (by omega)
  have h4 : 4 ≤ n * m := by
    calc 4 = 2 * 2 := rfl
    _ ≤ n * m := Nat.mul_le_mul hn hm
  have hinit : GInv n m (greedyInit matrix n m) := greedyInit_inv matrix hn hm
  have hrun : greedyRun matrix =
      greedyLoop matrix n m (n * m) (greedyInit matrix n m) := by
    show greedyLoop matrix matrix.length (matrix.headD []).length
        (matrix.length * (matrix.headD []).length)
        (greedyInit matrix matrix.length (matrix.headD []).length) =
      greedyLoop matrix n m (n * m) (greedyInit matrix n m)
    rw [hlen, hhead]
  have h := greedyLoop_run matrix (by omega) (by omega) (n * m)
    (greedyInit matrix n m) hinit (by show 4 ≤ n * m; omega)
    (by show n * m < 4 + n * m; omega)
  rw [hrun]
  refine ⟨h.1, h.2.1, h.2.2.1, ?_⟩
  rw [h.2.2.2]
  show 0 + (n * m - 4) = n * m - 4
  omega

/-- For non-degenerate grids `greedy_allocation` just projects the final loop
state. -/
lemma greedy_allocation_eq {matrix : CostMatrix} {n m : Nat}
    (hrect : Rect matrix n m) (hn : 0 < n) (hm : 0 < m) :
    greedy_allocation matrix =
      ((greedyRun matrix).1.regions, (greedyRun matrix).1.iter) := by
  have hguard : ¬(matrix = [] ∨ matrix.headD [] = []) := by
    push_neg
    refine ⟨matrix_ne_nil hrect hn, ?_⟩
    intro h
    have hh := headD_length hrect hn
    rw [h] at hh
    simp at hh
    omega
  rw [greedy_allocation, if_neg hguard]

/-- An invariant state with all `n·m` cells assigned covers the grid
exactly. -/
lemma ginv_cover {n m : Nat} {s : GState} (hinv : GInv n m s)
    (htot : s.total_assigned = n * m) :
    ∀ c : Cell, c ∈ allCells n m ↔ ∃ d < 4, c ∈ s.regions.getD d [] := by
  have hnodup : (s.regions.getD 0 [] ++ s.regions.getD 1 [] ++
      s.regions.getD 2 [] ++ s.regions.getD 3 []).Nodup := by
    rw [List.nodup_append, List.nodup_append, List.nodup_append]
    refine ⟨⟨⟨hinv.nodup 0 (by omega), hinv.nodup 1 (by omega),
      fun c hc => hinv.disj 0 (by omega) 1 (by omega) (by omega) c hc⟩,
      hinv.nodup 2 (by omega), ?_⟩, hinv.nodup 3 (by omega), ?_⟩
    · intro c hc
      rcases List.mem_append.mp hc with hc | hc
      · exact hinv.disj 0 (by omega) 2 (by omega) (by omega) c hc
      · exact hinv.disj 1 (by omega) 2 (by omega) (by omega) c hc
    · intro c hc
      rcases List.mem_append.mp hc with hc | hc
      · rcases List.mem_append.mp hc with hc | hc
        · exact hinv.disj 0 (by omega) 3 (by omega) (by omega) c hc
        · exact hinv.disj 1 (by omega) 3 (by omega) (by omega) c hc
      · exact hinv.disj 2 (by omega) 3 (by omega) (by omega) c hc
  have hsub : (s.regions.getD 0 [] ++ s.regions.getD 1 [] ++
      s.regions.getD 2 [] ++ s.regions.getD 3 []) ⊆ allCells n m := by
    intro c hc
    simp only [List.mem_append] at hc
    rcases hc with ((hc | hc) | hc) | hc
    · exact mem_allCells.mpr (hinv.bounds 0 (by omega) c hc)
    · exact mem_allCells.mpr (hinv.bounds 1 (by omega) c hc)
    · exact mem_allCells.mpr (hinv.bounds 2 (by omega) c hc)
    · exact mem_allCells.mpr (hinv.bounds 3 (by omega) c hc)
  have hperm : (s.regions.getD 0 [] ++ s.regions.getD 1 [] ++
      s.regions.getD 2 [] ++ s.regions.getD 3 []).Perm (allCells n m) := by
    refine (List.subperm_of_subset hnodup hsub).perm_of_length_le ?_
    rw [allCells_length]
    simp only [List.length_append]
    have hcount := hinv.count
    omega
  intro c
  constructor
  · intro hc
    have hmem := hperm.mem_iff.mpr hc
    simp only [List.mem_append] at hmem
    rcases hmem with ((hc2 | hc2) | hc2) | hc2
    · exact ⟨0, by omega, hc2⟩
    · exact ⟨1, by omega, hc2⟩
    · exact ⟨2, by omega, hc2⟩
    · exact ⟨3, by omega, hc2⟩
  · rintro ⟨d, hdlt, hmem⟩
    exact mem_allCells.mpr (hinv.bounds d hdlt c hmem)

/-- C10: for every grid with `n ≥ 2` and `m ≥ 2`, the greedy growth loop never
triggers its early-termination break (it exits through the `while` condition),
every successful growth step assigns exactly one new cell, the returned
iteration count equals `n·m − 4`, and all `n·m` cells end up assigned across
the four returned regions. -/
theorem greedy_allocation_no_break (matrix : CostMatrix) (n m : Nat)
    (hrect : Rect matrix n m) (hn : 2 ≤ n) (hm : 2 ≤ m) :
    (greedyRun matrix).2 = GExit.completed ∧
    (∀ s s2 : GState, GInv n m s → greedyStep matrix n m s = some s2 →
      s2.total_assigned = s.total_assigned + 1) ∧
    (greedy_allocation matrix).2 = n * m - 4 ∧
    ((greedy_allocation matrix).1.getD 0 []).length +
      ((greedy_allocation matrix).1.getD 1 []).length +
      ((greedy_allocation matrix).1.getD 2 []).length +
      ((greedy_allocation matrix).1.getD 3 []).length = n * m := by
  obtain ⟨hexit, hinv, htot, hiter⟩ := greedyRun_spec hrect hn hm
  have heq := greedy_allocation_eq hrect (by omega) (by omega)
  have hfst : (greedy_allocation matrix).1 = (greedyRun matrix).1.regions := by
    rw [heq]
  have hsnd : (greedy_allocation matrix).2 = (greedyRun matrix).1.iter := by
    rw [heq]
  refine ⟨hexit, fun s s2 hi hs => (greedyStep_inv hi hs).2.1, ?_, ?_⟩
  · rw [hsnd]
    exact hiter
  · rw [hfst]
    have hcount := hinv.count
    omega

theorem greedy_allocation_no_break_witness :
    Rect [[(1 : Int), 2], [3, 4]] 2 2 ∧
    ((greedyRun [[(1 : Int), 2], [3, 4]]).2 = GExit.completed ∧
     (∀ s s2 : GState, GInv 2 2 s →
       greedyStep [[(1 : Int), 2], [3, 4]] 2 2 s = some s2 →
       s2.total_assigned = s.total_assigned + 1) ∧
     (greedy_allocation [[(1 : Int), 2], [3, 4]]).2 = 2 * 2 - 4 ∧
     ((greedy_allocation [[(1 : Int), 2], [3, 4]]).1.getD 0 []).length +
       ((greedy_allocation [[(1 : Int), 2], [3, 4]]).1.getD 1 []).length +
       ((greedy_allocation [[(1 : Int), 2], [3, 4]]).1.getD 2 []).length +
       ((greedy_allocation [[(1 : Int), 2], [3, 4]]).1.getD 3 []).length = 2 * 2) :=
  ⟨by decide, greedy_allocation_no_break [[(1 : Int), 2], [3, 4]] 2 2 (by decide)
    (by decide) (by decide)⟩

/-- C3: refuted as stated — on the non-empty 1×4 grid `[[1,2,3,4]]` the greedy
growth loop exits through the `while` condition (the success case, no break),
yet the returned regions are not pairwise disjoint and do not cover each cell
exactly once: the corner seeding assigned cell `(0,0)` to both region 0 and
region 2. -/
theorem greedy_disjoint_cover_cex :
    (greedyRun [[(1 : Int), 2, 3, 4]]).2 = GExit.completed ∧
    ¬ DisjointCover (greedy_allocation [[(1 : Int), 2, 3, 4]]).1 1 4 := by
  refine ⟨by decide, ?_⟩
  intro h
  exact h.1 0 (by omega) 2 (by omega) (by omega) ((0 : Nat), (0 : Nat))
    (by decide) (by decide)

/-- C3 (amended): for every rectangular grid with `n ≥ 2` and `m ≥ 2` the
greedy growth loop runs to completion without the early-termination break, and
the 4 returned regions are pairwise disjoint, duplicate-free, and their union
equals the full set of grid cells. -/
theorem greedy_disjoint_cover_amended (matrix : CostMatrix) (n m : Nat)
    (hrect : Rect matrix n m) (hn : 2 ≤ n) (hm : 2 ≤ m) :
    (greedyRun matrix).2 = GExit.completed ∧
    DisjointCover (greedy_allocation matrix).1 n m := by
  obtain ⟨hexit, hinv, htot, hiter⟩ := greedyRun_spec hrect hn hm
  have heq := greedy_allocation_eq hrect (by omega) (by omega)
  have hfst : (greedy_allocation matrix).1 = (greedyRun matrix).1.regions := by
    rw [heq]
  refine ⟨hexit, ?_⟩
  rw [hfst]
  exact ⟨hinv.disj, ginv_cover hinv htot, hinv.nodup⟩

theorem greedy_disjoint_cover_amended_witness :
    Rect [[(1 : Int), 2], [3, 4]] 2 2 ∧
    ((greedyRun [[(1 : Int), 2], [3, 4]]).2 = GExit.completed ∧
     DisjointCover (greedy_allocation [[(1 : Int), 2], [3, 4]]).1 2 2) :=
  ⟨by decide, greedy_disjoint_cover_amended [[(1 : Int), 2], [3, 4]] 2 2
    (by decide) (by decide) (by decide)⟩

/-- C4: refuted — the corner seeding does not handle coinciding corners. On
the 1×4 grid `[[1,2,3,4]]` (where top-left = bottom-left and top-right =
bottom-right) cell `(0,0)` is seeded into both region 0 and region 2, and its
cost is counted in both region sums, instead of each coinciding corner being
assigned only once. -/
theorem greedy_seed_double_assigns :
    ((0 : Nat), (0 : Nat)) ∈ (greedy_allocation [[(1 : Int), 2, 3, 4]]).1.getD 0 [] ∧
    ((0 : Nat), (0 : Nat)) ∈ (greedy_allocation [[(1 : Int), 2, 3, 4]]).1.getD 2 [] ∧
    (greedyInit [[(1 : Int), 2, 3, 4]] 1 4).sums.getD 0 0 +
      (greedyInit [[(1 : Int), 2, 3, 4]] 1 4).sums.getD 2 0 =
      2 * cost [[(1 : Int), 2, 3, 4]] (0, 0) := by
  decide

/-- C9: on an empty or zero-dimension grid each of the three algorithms
returns 4 empty regions and a zero diagnostic count; and on any rectangular
grid with more than 16 cells, `brute_force_allocation` returns 4 empty regions
and a zero combinations-checked count (the capacity guard) instead of
enumerating. -/
theorem degenerate_and_capacity_guards (matrix : CostMatrix) (mi : Nat) :
    (matrix = [] ∨ matrix.headD [] = [] →
      brute_force_allocation matrix = ([[], [], [], []], 0) ∧
      greedy_allocation matrix = ([[], [], [], []], 0) ∧
      two_stage_allocation matrix mi = ([[], [], [], []], 0)) ∧
    (∀ n m : Nat, Rect matrix n m → 16 < n * m →
      brute_force_allocation matrix = ([[], [], [], []], 0)) := by
  constructor
  · intro hguard
    refine ⟨?_, ?_, ?_⟩
    · rw [brute_force_allocation, if_pos hguard]
    · rw [greedy_allocation, if_pos hguard]
    · rw [two_stage_allocation, if_pos hguard]
  · intro n m hrect hbig
    have hn : 0 < n := by
      rcases Nat.eq_zero_or_pos n with h0 | h
      · rw [h0, Nat.zero_mul] at hbig
        omega
      · exact h
    have hne : ¬(matrix = [] ∨ matrix.headD [] = []) := by
      push_neg
      refine ⟨matrix_ne_nil hrect hn, ?_⟩
      intro h
      have hh := headD_length hrect hn
      rw [h] at hh
      simp only [List.length_nil] at hh
      rw [← hh, Nat.mul_zero] at hbig
      omega
    have hlen : matrix.length = n := hrect.1
    have hhead : (matrix.headD []).length = m := headD_length hrect hn
    rw [brute_force_allocation, if_neg hne]
    simp only [hlen, hhead]
    rw [if_pos (by omega : n * m > 16)]

theorem degenerate_and_capacity_guards_witness :
    (([] : CostMatrix) = [] ∨ ([] : CostMatrix).headD [] = []) ∧
    (brute_force_allocation [] = ([[], [], [], []], 0) ∧
     greedy_allocation [] = ([[], [], [], []], 0) ∧
     two_stage_allocation [] 50 = ([[], [], [], []], 0)) ∧
    (Rect [[(1 : Int), 1, 1, 1, 1, 1, 1, 1, 1, 1, 1, 1, 1, 1, 1, 1, 1]] 1 17 ∧
     16 < 1 * 17 ∧
     brute_force_allocation
       [[(1 : Int), 1, 1, 1, 1, 1, 1, 1, 1, 1, 1, 1, 1, 1, 1, 1, 1]] =
       ([[], [], [], []], 0)) := by
  refine ⟨Or.inl rfl, (degenerate_and_capacity_guards [] 50).1 (Or.inl rfl),
    by decide, by decide, ?_⟩
  exact (degenerate_and_capacity_guards
    [[(1 : Int), 1, 1, 1, 1, 1, 1, 1, 1, 1, 1, 1, 1, 1, 1, 1, 1]] 50).2 1 17
    (by decide) (by decide)

/-- C2: refuted as stated — on the 1×4 grid `[[1,5,5,1]]` (4 ≤ 16 cells) the
degenerate greedy corner seeding keeps only the two corner cells, one of them
doubly assigned, yielding objective value 0, while the brute-force optimum
over genuinely valid partitions is 4; so the brute-force imbalance is not ≤
the greedy one. -/
theorem brute_le_heuristics_cex :
    ¬ (calculate_objective_value [[(1 : Int), 5, 5, 1]]
        (brute_force_allocation [[(1 : Int), 5, 5, 1]]).1 ≤
       calculate_objective_value [[(1 : Int), 5, 5, 1]]
        (greedy_allocation [[(1 : Int), 5, 5, 1]]).1) := by
  decide

/-- C2 (amended): on every rectangular grid with `n, m ≥ 2` and at most 16
cells, the brute-force imbalance is ≤ the greedy imbalance; and for every
iteration budget, whenever the two-stage result has four non-empty regions
passing the connectivity check, the brute-force imbalance is ≤ the two-stage
imbalance. -/
theorem brute_le_heuristics_amended (matrix : CostMatrix) (n m : Nat)
    (hrect : Rect matrix n m) (hn : 2 ≤ n) (hm : 2 ≤ m) (h16 : n * m ≤ 16) :
    calculate_objective_value matrix (brute_force_allocation matrix).1 ≤
      calculate_objective_value matrix (greedy_allocation matrix).1 ∧
    (∀ mi : Nat,
      (∀ d < 4, (two_stage_allocation matrix mi).1.getD d [] ≠ []) →
      all_regions_connected (two_stage_allocation matrix mi).1 n m = true →
      calculate_objective_value matrix (brute_force_allocation matrix).1 ≤
        calculate_objective_value matrix (two_stage_allocation matrix mi).1) := by
  have h4 : 4 ≤ n * m := by
    calc 4 = 2 * 2 := rfl
    _ ≤ n * m := Nat.mul_le_mul hn hm
  constructor
  · obtain ⟨hexit, hinv, htot, hiter⟩ := greedyRun_spec hrect hn hm
    have heq := greedy_allocation_eq hrect (by omega) (by omega)
    have hfst : (greedy_allocation matrix).1 = (greedyRun matrix).1.regions := by
      rw [heq]
    rw [hfst]
    exact brute_le_of_valid matrix hrect h4 h16 _
      ⟨hinv.disj, ginv_cover hinv htot, hinv.nodup⟩ hinv.nonempty hinv.conn
  · intro mi hne hconn
    have hc4 : Cover4 (two_stage_allocation matrix mi).1 n m := by
      rw [two_stage_eq matrix n m hrect (by omega) (by omega) mi]
      exact obLoop_cover4 matrix n m mi _ 0
        (create_initial_cover4 matrix n m hrect (by omega))
    have hdc := cover4_disjointCover hc4
    have hbounds : ∀ d < 4, ∀ c ∈ (two_stage_allocation matrix mi).1.getD d [],
        c.1 < n ∧ c.2 < m := by
      intro d hd c hc
      exact mem_allCells.mp ((hdc.2.1 c).mpr ⟨d, hd, hc⟩)
    have hconn2 : ∀ d < 4,
        RegionConnected ((two_stage_allocation matrix mi).1.getD d []) n m := by
      intro d hd
      have hmem : (two_stage_allocation matrix mi).1.getD d [] ∈
          (two_stage_allocation matrix mi).1 := getD_mem [] (by rw [hc4.1]; omega)
      rw [all_regions_connected] at hconn
      have hall := List.all_eq_true.mp hconn _ hmem
      rw [Bool.or_eq_true] at hall
      rcases hall with hemp | hcc
      · exact absurd (List.isEmpty_iff.mp hemp) (hne d hd)
      · exact (check_connected_iff _ n m (hdc.2.2 d hd) (hbounds d hd)).mp hcc
    exact brute_le_of_valid matrix hrect h4 h16 _ hdc hne hconn2

theorem brute_le_heuristics_amended_witness :
    Rect [[(1 : Int), 2], [3, 4]] 2 2 ∧ 2 * 2 ≤ 16 ∧
    (calculate_objective_value [[(1 : Int), 2], [3, 4]]
        (brute_force_allocation [[(1 : Int), 2], [3, 4]]).1 ≤
      calculate_objective_value [[(1 : Int), 2], [3, 4]]
        (greedy_allocation [[(1 : Int), 2], [3, 4]]).1 ∧
     (∀ mi : Nat,
       (∀ d < 4, (two_stage_allocation [[(1 : Int), 2], [3, 4]] mi).1.getD d [] ≠ []) →
       all_regions_connected (two_stage_allocation [[(1 : Int), 2], [3, 4]] mi).1 2 2 = true →
       calculate_objective_value [[(1 : Int), 2], [3, 4]]
           (brute_force_allocation [[(1 : Int), 2], [3, 4]]).1 ≤
         calculate_objective_value [[(1 : Int), 2], [3, 4]]
           (two_stage_allocation [[(1 : Int), 2], [3, 4]] mi).1)) :=
  ⟨by decide, by decide,
    brute_le_heuristics_amended [[(1 : Int), 2], [3, 4]] 2 2 (by decide) (by decide)
      (by decide) (by decide)⟩
